import Mathlib

/-!
Verification of the combinator parsing engine of the json_parser repository
(src/combinator_parser/{mod,common,lexers,json}.rs).

The Rust code is shallowly embedded: input slices (&str) become lists of
characters, a parser becomes a function from input to a four-valued outcome
(success with remaining input and output, failure carrying the remaining input
at the failure point, panic, or divergence).  Panic models the `.unwrap()`
calls in the integer lexers; divergence models a repetition combinator whose
argument parser succeeds without consuming input, which in Rust is an infinite
`while let` loop (parsers are pure functions, so a success on the same input
repeats forever).
-/

set_option maxRecDepth 10000

namespace JsonCombinator

/-- Remaining input characters: a Rust &str slice modelled as a list of chars. -/
abbrev Str := List Char

/-- Outcome of running a parser.  `ok remaining output` and `err remaining`
mirror Rust ParseResult = Result<(&str, Output), &str>; `panic` models a Rust
panic; `diverge` models an infinite loop inside a repetition combinator. -/
inductive PResult (α : Type) where
  | ok : Str → α → PResult α
  | err : Str → PResult α
  | panic : PResult α
  | diverge : PResult α
deriving DecidableEq, Repr

/-- A parser: the Rust closures implementing `Parser<'a, Output>`. -/
abbrev CParser (α : Type) := Str → PResult α

/-- common.rs `pair`: run two parsers in series, combining their outputs. -/
def pair (parser1 : CParser α) (parser2 : CParser β) : CParser (α × β) :=
  fun input =>
    match parser1 input with
    | .ok next r1 =>
      match parser2 next with
      | .ok last r2 => .ok last (r1, r2)
      | .err e => .err e
      | .panic => .panic
      | .diverge => .diverge
    | .err e => .err e
    | .panic => .panic
    | .diverge => .diverge

/-- common.rs `map`: change the type of the result using a mapping function. -/
def map (parser : CParser α) (map_fn : α → β) : CParser β :=
  fun input =>
    match parser input with
    | .ok next r => .ok next (map_fn r)
    | .err e => .err e
    | .panic => .panic
    | .diverge => .diverge

/-- A `map` whose mapping closure may panic (`none` = the closure panics).
Models the `.unwrap()` inside the map closures of the uint/int lexers. -/
def mapPanic (parser : CParser α) (map_fn : α → Option β) : CParser β :=
  fun input =>
    match parser input with
    | .ok next r =>
      match map_fn r with
      | some b => .ok next b
      | none => .panic
    | .err e => .err e
    | .panic => .panic
    | .diverge => .diverge

/-- common.rs `and_then`: monadic bind, the second parser depends on the
first output. -/
def and_then (parser : CParser α) (f : α → CParser β) : CParser β :=
  fun input =>
    match parser input with
    | .ok next r => f r next
    | .err e => .err e
    | .panic => .panic
    | .diverge => .diverge

/-- common.rs `left`: combine two parsers, keep the left output. -/
def left (parser1 : CParser α) (parser2 : CParser β) : CParser α :=
  map (pair parser1 parser2) (fun p => p.1)

/-- common.rs `right`: combine two parsers, keep the right output. -/
def right (parser1 : CParser α) (parser2 : CParser β) : CParser β :=
  map (pair parser1 parser2) (fun p => p.2)

/-- common.rs `zero_or_one`: zero or one match of the provided parser. -/
def zero_or_one (parser : CParser α) : CParser (List α) :=
  fun input =>
    match parser input with
    | .ok next item => .ok next [item]
    | .err _ => .ok input []
    | .panic => .panic
    | .diverge => .diverge

/-- The `while let Ok(...) = parser.parse(input)` accumulation loop shared by
zero_or_more and one_or_more.  The loop state is the remaining input; when an
iteration succeeds without shrinking the input the Rust loop never terminates
(parsers are pure), which the length guard turns into `diverge`.  The fuel is
a structural-recursion device only: callers pass `input.length + 1`, and since
every continued iteration strictly shrinks the input the fuel can never reach
zero before the loop exits. -/
def zomLoop (parser : CParser α) : Nat → Str → PResult (List α)
  | 0, _ => .diverge
  | fuel + 1, input =>
    match parser input with
    | .ok next item =>
      if next.length < input.length then
        match zomLoop parser fuel next with
        | .ok rest items => .ok rest (item :: items)
        | .err e => .err e
        | .panic => .panic
        | .diverge => .diverge
      else .diverge
    | .err _ => .ok input []
    | .panic => .panic
    | .diverge => .diverge

/-- common.rs `zero_or_more`: greedily apply the parser until it fails,
collecting the outputs in order. -/
def zero_or_more (parser : CParser α) : CParser (List α) :=
  fun input => zomLoop parser (input.length + 1) input

/-- common.rs `one_or_more`: like zero_or_more but the first application must
succeed; on a first failure it returns Err(original input). -/
def one_or_more (parser : CParser α) : CParser (List α) :=
  fun input =>
    match parser input with
    | .ok next first_item =>
      if next.length < input.length then
        match zomLoop parser (next.length + 1) next with
        | .ok rest items => .ok rest (first_item :: items)
        | .err e => .err e
        | .panic => .panic
        | .diverge => .diverge
      else .diverge
    | .err _ => .err input
    | .panic => .panic
    | .diverge => .diverge

/-- common.rs `pred`: run the parser, succeed only if the predicate holds on
the output, otherwise fail at the original position. -/
def pred (parser : CParser α) (predicate : α → Bool) : CParser α :=
  fun input =>
    match parser input with
    | .ok next value => if predicate value then .ok next value else .err input
    | .err _ => .err input
    | .panic => .panic
    | .diverge => .diverge

/-- common.rs `either`: try the first parser; only if it fails, try the second
parser on the same original input. -/
def either (parser1 : CParser α) (parser2 : CParser α) : CParser α :=
  fun input =>
    match parser1 input with
    | .ok next v => .ok next v
    | .err _ => parser2 input
    | .panic => .panic
    | .diverge => .diverge

/-- lexers.rs `any_char`: consume exactly one character; fail on empty input. -/
def any_char : CParser Char :=
  fun input =>
    match input with
    | [] => .err []
    | c :: rest => .ok rest c

/-- lexers.rs `match_literal`: succeed iff the input starts with the expected
characters, consuming exactly them. -/
def match_literal (expected : Str) : CParser Unit :=
  fun input =>
    if input.take expected.length = expected then
      .ok (input.drop expected.length) ()
    else .err input

/-- Rust char::is_whitespace tests the Unicode White_Space property; this
development only exercises ASCII inputs, on which the property holds exactly
for tab, line feed, vertical tab, form feed, carriage return and space. -/
def rustIsWhitespace (c : Char) : Bool :=
  c.toNat = 32 || (9 ≤ c.toNat && c.toNat ≤ 13)

/-- An ASCII decimal digit (code points 48 to 57). -/
def isAsciiDigit (c : Char) : Bool :=
  48 ≤ c.toNat && c.toNat ≤ 57

/-- Rust char::is_numeric tests the Unicode Nd/Nl/No categories; this
embedding models only its ASCII fragment, on which the property holds
exactly for the decimal digits '0'..'9'.  The two predicates differ on
non-ASCII numeric characters (e.g. U+0663), which the real lexers consume
into the digit run and which then make the unwrap panic; therefore every
theorem whose truth depends on where a numeric run ENDS carries an
explicit hypothesis keeping that boundary character inside ASCII (or at a
concrete ASCII character), where model and program agree.  Theorems about
runs made of ASCII digits themselves need no such hypothesis: ASCII digits
are numeric under both predicates. -/
def rustIsNumeric (c : Char) : Bool := isAsciiDigit c

/-- lexers.rs `whitespace_char`: a single whitespace character. -/
def whitespace_char : CParser Char := pred any_char rustIsWhitespace

/-- lexers.rs `space1`: one or more whitespace characters. -/
def space1 : CParser (List Char) := one_or_more whitespace_char

/-- lexers.rs `space0`: zero or more whitespace characters. -/
def space0 : CParser (List Char) := zero_or_more whitespace_char

/-- lexers.rs `trim`: run the parser, discarding whitespace on both sides. -/
def trim (parser : CParser α) : CParser α :=
  right space0 (left parser space0)

/-- lexers.rs `quoted_string`: a leading quote, zero or more non-quote
characters, a trailing quote; the Rust Vec<char> → String collect is the
identity on our character-list strings. -/
def quoted_string : CParser Str :=
  map
    (right (match_literal ['"'])
      (left (zero_or_more (pred any_char (fun c => c ≠ '"')))
        (match_literal ['"'])))
    (fun chars => chars)

/-- The numeric value denoted by a string of decimal digits. -/
def digitsVal (cs : Str) : Nat :=
  cs.foldl (fun acc c => acc * 10 + (c.toNat - 48)) 0

/-- Rust `str::parse::<u64>()`: succeeds iff the (nonempty, all-digit) string
denotes a value that fits in 64 unsigned bits.  The chars fed to it by `uint`
always pass the is_numeric predicate, so only the overflow failure matters. -/
def rustParseU64 (cs : Str) : Option Nat :=
  if cs ≠ [] ∧ cs.all isAsciiDigit ∧ digitsVal cs < 2 ^ 64 then some (digitsVal cs)
  else none

/-- Rust `str::parse::<i64>()` on an unsigned digit string: succeeds iff the
value is at most i64::MAX = 2^63 - 1. -/
def rustParseI64 (cs : Str) : Option Int :=
  if cs ≠ [] ∧ cs.all isAsciiDigit ∧ digitsVal cs < 2 ^ 63 then some (digitsVal cs : Int)
  else none

/-- lexers.rs `uint`: one or more numeric characters folded into a u64 by
`parse::<u64>().unwrap()` — the unwrap panics when the digits overflow. -/
def uint : CParser Nat :=
  mapPanic (one_or_more (pred any_char rustIsNumeric)) rustParseU64

/-- lexers.rs `int`: a literal minus sign, then one or more numeric characters
parsed by `parse::<i64>().map(|i| -i).unwrap()` — negation after parsing, and
the unwrap panics when the digits overflow i64::MAX. -/
def int : CParser Int :=
  and_then (match_literal ['-']) (fun _ =>
    mapPanic (one_or_more (pred any_char rustIsNumeric))
      (fun cs => (rustParseI64 cs).map (fun i => -i)))

/-- value.rs NumberValue; the Float(f64) variant is never produced by the
combinator engine (float parsing is a TODO in the source) and floating point
is outside this embedding, so it is omitted.  Int carries an i64 value, UInt
a u64 value; the lexers guarantee the range (or panic). -/
inductive NumberValue where
  | int : Int → NumberValue
  | uint : Nat → NumberValue
deriving DecidableEq, Repr

/-- value.rs Value.  Rust BTreeMap<String, Value> is modelled as an
association list kept sorted by key, which is exactly the ordered content of
the B-tree. -/
inductive Value where
  | number : NumberValue → Value
  | string : Str → Value
  | bool : Bool → Value
  | array : List Value → Value
  | object : List (Str × Value) → Value
  | null : Value

/-- Rust String order: lexicographic on UTF-8 bytes, which coincides with
lexicographic order on code points. -/
def strLt : Str → Str → Bool
  | [], [] => false
  | [], _ :: _ => true
  | _ :: _, [] => false
  | a :: as_, b :: bs =>
    if a.toNat < b.toNat then true
    else if b.toNat < a.toNat then false
    else strLt as_ bs

/-- BTreeMap::insert on the sorted-association-list model: inserting an
existing key replaces its value (last write wins). -/
def btreeInsert (m : List (Str × Value)) (k : Str) (v : Value) : List (Str × Value) :=
  match m with
  | [] => [(k, v)]
  | (k0, v0) :: rest =>
    if strLt k k0 then (k, v) :: (k0, v0) :: rest
    else if strLt k0 k then (k0, v0) :: btreeInsert rest k v
    else (k, v) :: rest

/-- The map-building body of json.rs object_value: a fresh BTreeMap, the
first-pair list inserted, then the comma-preceded-pair list inserted. -/
def buildObject (v1 v2 : List (Str × Value)) : List (Str × Value) :=
  v2.foldl (fun m kv => btreeInsert m kv.1 kv.2)
    (v1.foldl (fun m kv => btreeInsert m kv.1 kv.2) [])

/-- json.rs true_value. -/
def true_value : CParser Value :=
  map (match_literal ("true".toList)) (fun _ => Value.bool true)

/-- json.rs false_value. -/
def false_value : CParser Value :=
  map (match_literal ("false".toList)) (fun _ => Value.bool false)

/-- json.rs bool_value. -/
def bool_value : CParser Value := either true_value false_value

/-- json.rs null_value. -/
def null_value : CParser Value :=
  map (match_literal ("null".toList)) (fun _ => Value.null)

/-- json.rs string_value. -/
def string_value : CParser Value :=
  map quoted_string (fun s => Value.string s)

/-- json.rs number_value: the signed parser is tried before the unsigned. -/
def number_value : CParser Value :=
  either (map int (fun i => Value.number (NumberValue.int i)))
    (map uint (fun u => Value.number (NumberValue.uint u)))

/-- json.rs primitive_value: bool, then null, then string, then number. -/
def primitive_value : CParser Value :=
  either bool_value (either null_value (either string_value number_value))

/-- json.rs object_pair, parameterized by the json_value parser it invokes
after the colon (in Rust the recursive call is built lazily inside the
and_then closure; here the recursion is fuel-indexed through `jv`). -/
def object_pair (jv : CParser Value) : CParser (Str × Value) :=
  pair (trim quoted_string) (right (match_literal [':']) jv)

/-- json.rs comma_preceded_object_pair. -/
def comma_preceded_object_pair (jv : CParser Value) : CParser (Str × Value) :=
  right (match_literal [',']) (object_pair jv)

/-- json.rs object_value: a brace, zero or one pair, zero or more
comma-preceded pairs, a closing brace, collected into the BTreeMap. -/
def object_value (jv : CParser Value) : CParser Value :=
  and_then (match_literal ['\x7b']) (fun _ =>
    map
      (left
        (pair (zero_or_one (object_pair jv))
          (zero_or_more (comma_preceded_object_pair jv)))
        (match_literal ['\x7d']))
      (fun p => Value.object (buildObject p.1 p.2)))

/-- json.rs comma_preceded_value. -/
def comma_preceded_value (jv : CParser Value) : CParser Value :=
  right (match_literal [',']) jv

/-- json.rs array_value: a bracket, zero or one value, zero or more
comma-preceded values, a closing bracket; the two vectors are appended. -/
def array_value (jv : CParser Value) : CParser Value :=
  and_then (match_literal ['[']) (fun _ =>
    map
      (left
        (pair (zero_or_one jv) (zero_or_more (comma_preceded_value jv)))
        (match_literal [']']))
      (fun p => Value.array (p.1 ++ p.2)))

/-- json.rs nonprimitive_value: object, then array. -/
def nonprimitive_value (jv : CParser Value) : CParser Value :=
  either (object_value jv) (array_value jv)

/-- json.rs json_value: trimmed primitive-or-nonprimitive.  Rust builds the
recursive grammar lazily through closures; the Nat index is the structural
fuel for that recursion.  One fuel unit is spent per nesting level, and every
nesting level consumes at least one input character before recursing, so fuel
`input.length + 1` always exceeds the depth the parse can reach and the
fuel-exhaustion outcome (diverge at fuel 0) is unreachable from the entry
point. -/
def json_value : Nat → CParser Value
  | 0 => fun _ => .diverge
  | n + 1 => trim (either primitive_value (nonprimitive_value (json_value n)))

/-- Outcome of the top-level entry point (mod.rs `parse`), which discards the
remaining input on success. -/
inductive TopResult where
  | ok : Value → TopResult
  | err : Str → TopResult
  | panic : TopResult
  | diverge : TopResult

/-- mod.rs `parse`: run json_value and keep only the value. -/
def parse (input : Str) : TopResult :=
  match json_value (input.length + 1) input with
  | .ok _ v => .ok v
  | .err e => .err e
  | .panic => .panic
  | .diverge => .diverge

/-- BTreeMap::get on the sorted-association-list model (linear lookup gives
the same mapping; order is irrelevant for lookup). -/
def btreeGet (m : List (Str × Value)) (k : Str) : Option Value :=
  match m with
  | [] => none
  | (k0, v0) :: rest => if k = k0 then some v0 else btreeGet rest k

/-- A parser consumes monotonically: on success the remaining input is a
suffix of the input passed in. -/
def SuffixMono (p : CParser α) : Prop :=
  ∀ (input rest : Str) (a : α), p input = .ok rest a → rest <:+ input

/-- A value boundary: the input that follows a rendered value neither starts
with whitespace (which the trailing trim would swallow) nor with a digit
(which a number lexer would swallow).  The characters that actually follow a
value inside a document — comma, colon, closing bracket, closing brace, or
end of input — all satisfy this. -/
def RestOk (rest : Str) : Prop :=
  ∀ c, rest.head? = some c → rustIsWhitespace c = false ∧ isAsciiDigit c = false

/-- A weaker boundary used between a value core and its trailing whitespace
run: only digits must be excluded. -/
def NoDigitHead (rest : Str) : Prop :=
  ∀ c, rest.head? = some c → isAsciiDigit c = false

/-!
Concrete layouts: the documents of the grammar together with an arbitrary
whitespace run at every slot surrounding the structural punctuation
`[ ] \x7b \x7d , :` and at the edges of the document.  A LayElem is a value
with its two edge runs (the slots of the trim in json_value); array elements
and the value of an object pair are LayElems, so each comma, bracket, brace
and colon has both its neighbouring slots available.  Empty composites carry
no inner slot: the grammar rejects whitespace between the brackets of `[]`
and between the braces of `\x7b\x7d` (see the C2 counterexample), so a layout
cannot place any there.  The evaluation of a layout never looks at the
whitespace fields, so two layouts differing only in whitespace evaluate to
the same Value.
-/

mutual
inductive Lay where
  | lnull : Lay
  | ltrue : Lay
  | lfalse : Lay
  | lstr : Str → Lay
  | luint : Str → Lay
  | lint : Str → Lay
  | larrEmpty : Lay
  | larr : LayElem → LayElemList → Lay
  | lobjEmpty : Lay
  | lobj : LayPair → LayPairList → Lay
inductive LayElem where
  | mk : Str → Lay → Str → LayElem
inductive LayElemList where
  | nil : LayElemList
  | cons : LayElem → LayElemList → LayElemList
inductive LayPair where
  | mk : Str → Str → Str → LayElem → LayPair
inductive LayPairList where
  | nil : LayPairList
  | cons : LayPair → LayPairList → LayPairList
end

mutual
/-- The document text of a layout. -/
def renderLay : Lay → Str
  | .lnull => "null".toList
  | .ltrue => "true".toList
  | .lfalse => "false".toList
  | .lstr content => '"' :: content ++ ['"']
  | .luint ds => ds
  | .lint ds => '-' :: ds
  | .larrEmpty => ['[', ']']
  | .larr first rest => '[' :: (renderElem first ++ renderElems rest ++ [']'])
  | .lobjEmpty => ['\x7b', '\x7d']
  | .lobj first rest => '\x7b' :: (renderPair first ++ renderPairs rest ++ ['\x7d'])
/-- The text of a whitespace-wrapped value. -/
def renderElem : LayElem → Str
  | .mk w1 core w2 => w1 ++ renderLay core ++ w2
/-- The text of the comma-preceded tail elements of an array. -/
def renderElems : LayElemList → Str
  | .nil => []
  | .cons e es => ',' :: (renderElem e ++ renderElems es)
/-- The text of an object pair: whitespace-wrapped quoted key, colon,
whitespace-wrapped value. -/
def renderPair : LayPair → Str
  | .mk kw1 key kw2 v => kw1 ++ ('"' :: key ++ ('"' :: kw2 ++ (':' :: renderElem v)))
/-- The text of the comma-preceded tail pairs of an object. -/
def renderPairs : LayPairList → Str
  | .nil => []
  | .cons p ps => ',' :: (renderPair p ++ renderPairs ps)
end

mutual
/-- The Value a layout parses to; independent of every whitespace field. -/
def evalLay : Lay → Value
  | .lnull => .null
  | .ltrue => .bool true
  | .lfalse => .bool false
  | .lstr content => .string content
  | .luint ds => .number (.uint (digitsVal ds))
  | .lint ds => .number (.int (-(digitsVal ds : Int)))
  | .larrEmpty => .array []
  | .larr first rest => .array (evalElem first :: evalElemList rest)
  | .lobjEmpty => .object []
  | .lobj first rest => .object (buildObject [evalPairKV first] (evalPairList rest))
def evalElem : LayElem → Value
  | .mk _ core _ => evalLay core
def evalElemList : LayElemList → List Value
  | .nil => []
  | .cons e es => evalElem e :: evalElemList es
def evalPairKV : LayPair → Str × Value
  | .mk _ key _ v => (key, evalElem v)
def evalPairList : LayPairList → List (Str × Value)
  | .nil => []
  | .cons p ps => evalPairKV p :: evalPairList ps
end

mutual
/-- Well-formedness: whitespace fields hold whitespace, string contents hold
no quote, digit fields are nonempty in-range digit runs. -/
def wfLay : Lay → Bool
  | .lnull => true
  | .ltrue => true
  | .lfalse => true
  | .lstr content => content.all (fun c => c != '"')
  | .luint ds => !ds.isEmpty && ds.all isAsciiDigit && decide (digitsVal ds < 2 ^ 64)
  | .lint ds => !ds.isEmpty && ds.all isAsciiDigit && decide (digitsVal ds < 2 ^ 63)
  | .larrEmpty => true
  | .larr first rest => wfElem first && wfElemList rest
  | .lobjEmpty => true
  | .lobj first rest => wfPair first && wfPairList rest
def wfElem : LayElem → Bool
  | .mk w1 core w2 => w1.all rustIsWhitespace && wfLay core && w2.all rustIsWhitespace
def wfElemList : LayElemList → Bool
  | .nil => true
  | .cons e es => wfElem e && wfElemList es
def wfPair : LayPair → Bool
  | .mk kw1 key kw2 v =>
    kw1.all rustIsWhitespace && key.all (fun c => c != '"') &&
      kw2.all rustIsWhitespace && wfElem v
def wfPairList : LayPairList → Bool
  | .nil => true
  | .cons p ps => wfPair p && wfPairList ps
end

mutual
/-- Nesting depth of a layout: the number of fuel units json_value must have
available; one unit is spent per nesting level. -/
def depthLay : Lay → Nat
  | .lnull => 0
  | .ltrue => 0
  | .lfalse => 0
  | .lstr _ => 0
  | .luint _ => 0
  | .lint _ => 0
  | .larrEmpty => 1
  | .larr first rest => Nat.max (depthElem first) (depthElems rest)
  | .lobjEmpty => 0
  | .lobj first rest => Nat.max (depthPair first) (depthPairs rest)
def depthElem : LayElem → Nat
  | .mk _ core _ => depthLay core + 1
def depthElems : LayElemList → Nat
  | .nil => 0
  | .cons e es => Nat.max (depthElem e) (depthElems es)
def depthPair : LayPair → Nat
  | .mk _ _ _ v => depthElem v
def depthPairs : LayPairList → Nat
  | .nil => 0
  | .cons p ps => Nat.max (depthPair p) (depthPairs ps)
end

/-!  Helper lemmas about the repetition loop. -/

/-- The loop result does not depend on the fuel, provided the fuel exceeds the
input length (each continued iteration strictly shrinks the input). -/
theorem zomLoop_fuel_inv (p : CParser α) :
    ∀ (f f' : Nat) (input : Str), input.length < f → input.length < f' →
      zomLoop p f input = zomLoop p f' input := by
  intro f
  induction f with
  | zero => intro f' input h _; exact absurd h (Nat.not_lt_zero _)
  | succ k ih =>
    intro f' input h h'
    match f' with
    | 0 => exact absurd h' (Nat.not_lt_zero _)
    | k' + 1 =>
      simp only [zomLoop]
      cases hp : p input with
      | ok next item =>
        by_cases hlen : next.length < input.length
        · simp only [hlen, if_pos]
          rw [ih k' next (by omega) (by omega)]
        · simp only [hlen, if_neg, not_false_eq_true]
      | err e => rfl
      | panic => rfl
      | diverge => rfl

/-- zero_or_more unfolding: the argument parser fails, so the loop exits at
once with the empty collection. -/
theorem zero_or_more_of_err {p : CParser α} {input e : Str}
    (hp : p input = .err e) : zero_or_more p input = .ok input [] := by
  unfold zero_or_more
  simp only [zomLoop]
  rw [hp]

/-- zero_or_more unfolding: the argument parser succeeds consuming input, so
the output is collected and the loop continues on the remaining input. -/
theorem zero_or_more_of_ok {p : CParser α} {input next : Str} {a : α}
    (hp : p input = .ok next a) (hlen : next.length < input.length) :
    zero_or_more p input =
      match zero_or_more p next with
      | .ok rest items => .ok rest (a :: items)
      | .err e => .err e
      | .panic => .panic
      | .diverge => .diverge := by
  unfold zero_or_more
  conv =>
    lhs
    simp only [zomLoop]
    rw [hp]
  simp only [hlen, if_pos]
  rw [zomLoop_fuel_inv p input.length (next.length + 1) next (by omega) (by omega)]

/-- zero_or_more unfolding: the argument parser succeeds without consuming,
so the Rust while-let loop repeats the same pure call forever. -/
theorem zero_or_more_of_ok_stuck {p : CParser α} {input next : Str} {a : α}
    (hp : p input = .ok next a) (hlen : ¬ next.length < input.length) :
    zero_or_more p input = .diverge := by
  unfold zero_or_more
  simp only [zomLoop]
  rw [hp]
  simp only [hlen, if_neg, not_false_eq_true]

/-- The loop never exits with a failure. -/
theorem zomLoop_ne_err (p : CParser α) :
    ∀ (f : Nat) (input e : Str), zomLoop p f input ≠ .err e := by
  intro f
  induction f with
  | zero => intro input e h; exact PResult.noConfusion h
  | succ k ih =>
    intro input e h
    rw [zomLoop] at h
    cases hp : p input with
    | ok next item =>
      rw [hp] at h
      by_cases hlen : next.length < input.length
      · simp only [hlen, if_pos] at h
        cases hz : zomLoop p k next with
        | ok rest items => rw [hz] at h; exact PResult.noConfusion h
        | err e2 => exact ih next e2 hz
        | panic => rw [hz] at h; exact PResult.noConfusion h
        | diverge => rw [hz] at h; exact PResult.noConfusion h
      · simp only [hlen, if_neg, not_false_eq_true] at h
        exact PResult.noConfusion h
    | err e2 => rw [hp] at h; exact PResult.noConfusion h
    | panic => rw [hp] at h; exact PResult.noConfusion h
    | diverge => rw [hp] at h; exact PResult.noConfusion h

/-- zero_or_more never returns a failure. -/
theorem zero_or_more_ne_err (p : CParser α) (input e : Str) :
    zero_or_more p input ≠ .err e :=
  zomLoop_ne_err p (input.length + 1) input e

/-- one_or_more unfolding: the first application fails, so the whole parser
fails at the original input. -/
theorem one_or_more_of_err {p : CParser α} {input e : Str}
    (hp : p input = .err e) : one_or_more p input = .err input := by
  unfold one_or_more
  rw [hp]

/-- one_or_more unfolding: the first application succeeds consuming input,
then the zero_or_more loop finishes the job. -/
theorem one_or_more_of_ok {p : CParser α} {input next : Str} {a : α}
    (hp : p input = .ok next a) (hlen : next.length < input.length) :
    one_or_more p input =
      match zero_or_more p next with
      | .ok rest items => .ok rest (a :: items)
      | .err e => .err e
      | .panic => .panic
      | .diverge => .diverge := by
  unfold one_or_more zero_or_more
  rw [hp]
  simp only [hlen, if_pos]

/-!  Character-predicate repetitions amount to takeWhile/dropWhile. -/

/-- pred-over-any_char on a character failing the predicate. -/
theorem pred_any_char_neg {f : Char → Bool} {c : Char} {rest : Str}
    (hc : ¬ f c = true) : pred any_char f (c :: rest) = .err (c :: rest) := by
  simp [pred, any_char, hc]

/-- pred-over-any_char on a character passing the predicate. -/
theorem pred_any_char_pos {f : Char → Bool} {c : Char} {rest : Str}
    (hc : f c = true) : pred any_char f (c :: rest) = .ok rest c := by
  simp [pred, any_char, hc]

/-- Greedily repeating a one-character predicate parser consumes exactly the
longest prefix satisfying the predicate. -/
theorem zero_or_more_pred_any_char (f : Char → Bool) :
    ∀ input : Str,
      zero_or_more (pred any_char f) input =
        .ok (input.dropWhile f) (input.takeWhile f) := by
  intro input
  induction input with
  | nil => rfl
  | cons c rest ih =>
    by_cases hc : f c = true
    · rw [zero_or_more_of_ok (pred_any_char_pos hc) (by simp), ih]
      simp [List.takeWhile_cons, List.dropWhile_cons, hc]
    · rw [zero_or_more_of_err (pred_any_char_neg hc)]
      simp only [List.takeWhile_cons, List.dropWhile_cons]
      rw [if_neg hc, if_neg hc]

/-- one_or_more of a one-character predicate parser on empty input fails. -/
theorem one_or_more_pred_nil (f : Char → Bool) :
    one_or_more (pred any_char f) [] = .err [] := rfl

/-- one_or_more of a one-character predicate parser: first char rejected. -/
theorem one_or_more_pred_cons_neg {f : Char → Bool} {c : Char} {rest : Str}
    (hc : ¬ f c = true) :
    one_or_more (pred any_char f) (c :: rest) = .err (c :: rest) :=
  one_or_more_of_err (pred_any_char_neg hc)

/-- one_or_more of a one-character predicate parser: first char accepted,
then the longest satisfying run is consumed. -/
theorem one_or_more_pred_cons_pos {f : Char → Bool} {c : Char} {rest : Str}
    (hc : f c = true) :
    one_or_more (pred any_char f) (c :: rest) =
      .ok (rest.dropWhile f) (c :: rest.takeWhile f) := by
  rw [one_or_more_of_ok (pred_any_char_pos hc) (by simp),
    zero_or_more_pred_any_char]

/-- takeWhile over an append whose left part satisfies the predicate. -/
theorem takeWhile_append_all {f : Char → Bool} {t : Str} :
    ∀ {s : Str}, (∀ c ∈ s, f c = true) →
      (s ++ t).takeWhile f = s ++ t.takeWhile f := by
  intro s
  induction s with
  | nil => intro _; rfl
  | cons c cs ih =>
    intro h
    simp only [List.cons_append, List.takeWhile_cons, h c (by simp), if_true]
    rw [ih (fun d hd => h d (by simp [hd]))]

/-- dropWhile over an append whose left part satisfies the predicate. -/
theorem dropWhile_append_all {f : Char → Bool} {t : Str} :
    ∀ {s : Str}, (∀ c ∈ s, f c = true) →
      (s ++ t).dropWhile f = t.dropWhile f := by
  intro s
  induction s with
  | nil => intro _; rfl
  | cons c cs ih =>
    intro h
    simp only [List.cons_append, List.dropWhile_cons, h c (by simp)]
    exact ih (fun d hd => h d (by simp [hd]))

/-- match_literal consumes exactly its literal from the front. -/
theorem match_literal_append (lit rest : Str) :
    match_literal lit (lit ++ rest) = .ok rest () := by
  simp [match_literal, List.take_left, List.drop_left]

/-- match_literal fails when the input prefix differs from the literal. -/
theorem match_literal_of_ne {lit input : Str}
    (h : input.take lit.length ≠ lit) : match_literal lit input = .err input := by
  simp [match_literal, h]

/-!  One-step unfolding helpers for the sequencing combinators. -/

theorem map_of_ok {p : CParser α} {f : α → β} {input r : Str} {a : α}
    (h : p input = .ok r a) : map p f input = .ok r (f a) := by
  unfold map; rw [h]

theorem map_of_err {p : CParser α} {f : α → β} {input e : Str}
    (h : p input = .err e) : map p f input = .err e := by
  unfold map; rw [h]

theorem mapPanic_of_ok {p : CParser α} {f : α → Option β} {input r : Str} {a : α}
    (h : p input = .ok r a) :
    mapPanic p f input =
      match f a with
      | some b => .ok r b
      | none => .panic := by
  unfold mapPanic; rw [h]

theorem mapPanic_of_err {p : CParser α} {f : α → Option β} {input e : Str}
    (h : p input = .err e) : mapPanic p f input = .err e := by
  unfold mapPanic; rw [h]

theorem and_then_of_ok {p : CParser α} {f : α → CParser β} {input r : Str} {a : α}
    (h : p input = .ok r a) : and_then p f input = f a r := by
  unfold and_then; rw [h]

theorem and_then_of_err {p : CParser α} {f : α → CParser β} {input e : Str}
    (h : p input = .err e) : and_then p f input = .err e := by
  unfold and_then; rw [h]

theorem pair_of_err1 {p1 : CParser α} {p2 : CParser β} {input e : Str}
    (h : p1 input = .err e) : pair p1 p2 input = .err e := by
  unfold pair; rw [h]

theorem pair_ok_ok {p1 : CParser α} {p2 : CParser β} {input n l : Str} {r1 : α} {r2 : β}
    (h1 : p1 input = .ok n r1) (h2 : p2 n = .ok l r2) :
    pair p1 p2 input = .ok l (r1, r2) := by
  unfold pair; rw [h1]; dsimp only; rw [h2]

theorem pair_ok_err {p1 : CParser α} {p2 : CParser β} {input n e : Str} {r1 : α}
    (h1 : p1 input = .ok n r1) (h2 : p2 n = .err e) :
    pair p1 p2 input = .err e := by
  unfold pair; rw [h1]; dsimp only; rw [h2]

theorem either_of_ok {p1 p2 : CParser α} {input n : Str} {a : α}
    (h : p1 input = .ok n a) : either p1 p2 input = .ok n a := by
  unfold either; rw [h]

theorem either_of_err {p1 p2 : CParser α} {input e : Str}
    (h : p1 input = .err e) : either p1 p2 input = p2 input := by
  unfold either; rw [h]

theorem zero_or_one_of_ok {p : CParser α} {input n : Str} {a : α}
    (h : p input = .ok n a) : zero_or_one p input = .ok n [a] := by
  unfold zero_or_one; rw [h]

theorem zero_or_one_of_err {p : CParser α} {input e : Str}
    (h : p input = .err e) : zero_or_one p input = .ok input [] := by
  unfold zero_or_one; rw [h]

theorem left_ok_ok {p1 : CParser α} {p2 : CParser β} {input n l : Str} {r1 : α} {r2 : β}
    (h1 : p1 input = .ok n r1) (h2 : p2 n = .ok l r2) :
    left p1 p2 input = .ok l r1 :=
  map_of_ok (pair_ok_ok h1 h2)

theorem left_of_err1 {p1 : CParser α} {p2 : CParser β} {input e : Str}
    (h : p1 input = .err e) : left p1 p2 input = .err e :=
  map_of_err (pair_of_err1 h)

theorem left_ok_err {p1 : CParser α} {p2 : CParser β} {input n e : Str} {r1 : α}
    (h1 : p1 input = .ok n r1) (h2 : p2 n = .err e) :
    left p1 p2 input = .err e :=
  map_of_err (pair_ok_err h1 h2)

theorem right_ok_ok {p1 : CParser α} {p2 : CParser β} {input n l : Str} {r1 : α} {r2 : β}
    (h1 : p1 input = .ok n r1) (h2 : p2 n = .ok l r2) :
    right p1 p2 input = .ok l r2 :=
  map_of_ok (pair_ok_ok h1 h2)

theorem right_of_err1 {p1 : CParser α} {p2 : CParser β} {input e : Str}
    (h : p1 input = .err e) : right p1 p2 input = .err e :=
  map_of_err (pair_of_err1 h)

theorem right_ok_err {p1 : CParser α} {p2 : CParser β} {input n e : Str} {r1 : α}
    (h1 : p1 input = .ok n r1) (h2 : p2 n = .err e) :
    right p1 p2 input = .err e :=
  map_of_err (pair_ok_err h1 h2)

/-!  Lexical primitives on decomposed inputs. -/

theorem takeWhile_eq_nil_of_head {f : Char → Bool} {t : Str}
    (h : ∀ c, t.head? = some c → f c = false) : t.takeWhile f = [] := by
  cases t with
  | nil => rfl
  | cons c cs => simp [List.takeWhile_cons, h c rfl]

theorem dropWhile_eq_self_of_head {f : Char → Bool} {t : Str}
    (h : ∀ c, t.head? = some c → f c = false) : t.dropWhile f = t := by
  cases t with
  | nil => rfl
  | cons c cs => simp [List.dropWhile_cons, h c rfl]

theorem match_literal_head_ne {c d : Char} {lit input : Str} (h : c ≠ d) :
    match_literal (d :: lit) (c :: input) = .err (c :: input) := by
  apply match_literal_of_ne
  simp [List.take_succ_cons, h]

theorem space0_nil : space0 [] = .ok [] [] := rfl

theorem space0_head_not_ws {c : Char} {rest : Str} (h : rustIsWhitespace c = false) :
    space0 (c :: rest) = .ok (c :: rest) [] := by
  unfold space0 whitespace_char
  rw [zero_or_more_pred_any_char]
  simp [List.takeWhile_cons, List.dropWhile_cons, h]

theorem space0_append {w rest : Str}
    (hw : ∀ c ∈ w, rustIsWhitespace c = true)
    (hr : ∀ c, rest.head? = some c → rustIsWhitespace c = false) :
    space0 (w ++ rest) = .ok rest w := by
  unfold space0 whitespace_char
  rw [zero_or_more_pred_any_char, takeWhile_append_all hw, dropWhile_append_all hw,
    takeWhile_eq_nil_of_head hr, dropWhile_eq_self_of_head hr]
  simp

/-- quoted_string on a well-formed quoted fragment followed by anything. -/
theorem quoted_string_append {key rest : Str} (h : ∀ c ∈ key, c ≠ '"') :
    quoted_string ('"' :: (key ++ '"' :: rest)) = .ok rest key := by
  have h1 : match_literal ['"'] ('"' :: (key ++ '"' :: rest)) =
      .ok (key ++ '"' :: rest) () := by
    simpa using match_literal_append ['"'] (key ++ '"' :: rest)
  have h2 : zero_or_more (pred any_char (fun c => c ≠ '"')) (key ++ '"' :: rest) =
      .ok ('"' :: rest) key := by
    rw [zero_or_more_pred_any_char,
      takeWhile_append_all (fun c hc => by simp [h c hc]),
      dropWhile_append_all (fun c hc => by simp [h c hc])]
    simp [List.takeWhile_cons, List.dropWhile_cons]
  have h3 : match_literal ['"'] ('"' :: rest) = .ok rest () := by
    simpa using match_literal_append ['"'] rest
  unfold quoted_string
  exact map_of_ok (right_ok_ok h1 (left_ok_ok h2 h3))

/-- uint on a digit run followed by a non-digit boundary. -/
theorem uint_digits {ds rest : Str} (h1 : ds ≠ [])
    (h2 : ∀ c ∈ ds, isAsciiDigit c = true)
    (h3 : ∀ c, rest.head? = some c → isAsciiDigit c = false)
    (h4 : digitsVal ds < 2 ^ 64) :
    uint (ds ++ rest) = .ok rest (digitsVal ds) := by
  cases ds with
  | nil => exact absurd rfl h1
  | cons d ds2 =>
    unfold uint
    have hstep : one_or_more (pred any_char rustIsNumeric) (d :: (ds2 ++ rest)) =
        .ok ((ds2 ++ rest).dropWhile rustIsNumeric)
          (d :: (ds2 ++ rest).takeWhile rustIsNumeric) :=
      one_or_more_pred_cons_pos (by simpa [rustIsNumeric] using h2 d (by simp))
    have htake : (ds2 ++ rest).takeWhile rustIsNumeric = ds2 := by
      rw [takeWhile_append_all (fun c hc => by
          simpa [rustIsNumeric] using h2 c (by simp [hc])),
        takeWhile_eq_nil_of_head (fun c hc => by simpa [rustIsNumeric] using h3 c hc)]
      simp
    have hdrop : (ds2 ++ rest).dropWhile rustIsNumeric = rest := by
      rw [dropWhile_append_all (fun c hc => by
          simpa [rustIsNumeric] using h2 c (by simp [hc])),
        dropWhile_eq_self_of_head (fun c hc => by simpa [rustIsNumeric] using h3 c hc)]
    rw [List.cons_append, mapPanic_of_ok (hstep), htake, hdrop]
    have : rustParseU64 (d :: ds2) = some (digitsVal (d :: ds2)) := by
      unfold rustParseU64
      rw [if_pos ⟨by simp, by simpa using h2, h4⟩]
    rw [this]

/-- int on a minus sign, a digit run and a non-digit boundary. -/
theorem int_digits {ds rest : Str} (h1 : ds ≠ [])
    (h2 : ∀ c ∈ ds, isAsciiDigit c = true)
    (h3 : ∀ c, rest.head? = some c → isAsciiDigit c = false)
    (h4 : digitsVal ds < 2 ^ 63) :
    int ('-' :: (ds ++ rest)) = .ok rest (-(digitsVal ds : Int)) := by
  cases ds with
  | nil => exact absurd rfl h1
  | cons d ds2 =>
    unfold int
    rw [and_then_of_ok (a := ()) (by
      have : ('-' :: ((d :: ds2) ++ rest)) = ['-'] ++ ((d :: ds2) ++ rest) := by simp
      rw [this]; exact match_literal_append ['-'] _)]
    have hstep : one_or_more (pred any_char rustIsNumeric) (d :: (ds2 ++ rest)) =
        .ok ((ds2 ++ rest).dropWhile rustIsNumeric)
          (d :: (ds2 ++ rest).takeWhile rustIsNumeric) :=
      one_or_more_pred_cons_pos (by simpa [rustIsNumeric] using h2 d (by simp))
    have htake : (ds2 ++ rest).takeWhile rustIsNumeric = ds2 := by
      rw [takeWhile_append_all (fun c hc => by
          simpa [rustIsNumeric] using h2 c (by simp [hc])),
        takeWhile_eq_nil_of_head (fun c hc => by simpa [rustIsNumeric] using h3 c hc)]
      simp
    have hdrop : (ds2 ++ rest).dropWhile rustIsNumeric = rest := by
      rw [dropWhile_append_all (fun c hc => by
          simpa [rustIsNumeric] using h2 c (by simp [hc])),
        dropWhile_eq_self_of_head (fun c hc => by simpa [rustIsNumeric] using h3 c hc)]
    rw [List.cons_append, mapPanic_of_ok (hstep), htake, hdrop]
    have : rustParseI64 (d :: ds2) = some ((digitsVal (d :: ds2) : Int)) := by
      unfold rustParseI64
      rw [if_pos ⟨by simp, by simpa using h2, h4⟩]
    rw [this]
    rfl

/-- int fails on any input that does not start with a minus sign. -/
theorem int_no_minus {c : Char} {cs : Str} (h : c ≠ '-') :
    int (c :: cs) = .err (c :: cs) :=
  and_then_of_err (match_literal_head_ne h)

/-!  Ordered-map helpers. -/

theorem strLt_irrefl : ∀ s : Str, strLt s s = false := by
  intro s
  induction s with
  | nil => rfl
  | cons c cs ih => simp [strLt, ih]

/-- Inserting a key makes lookup of that key return the inserted value,
whatever was there before: last write wins. -/
theorem btreeGet_insert_self :
    ∀ (m : List (Str × Value)) (k : Str) (v : Value),
      btreeGet (btreeInsert m k v) k = some v := by
  intro m k v
  induction m with
  | nil => simp [btreeInsert, btreeGet]
  | cons kv rest ih =>
    obtain ⟨k0, v0⟩ := kv
    unfold btreeInsert
    by_cases h1 : strLt k k0 = true
    · rw [if_pos h1]; simp [btreeGet]
    · rw [if_neg h1]
      by_cases h2 : strLt k0 k = true
      · rw [if_pos h2]
        unfold btreeGet
        rw [if_neg ?hne]
        · exact ih
        case hne =>
          intro he
          rw [he, strLt_irrefl] at h2
          exact Bool.noConfusion h2
      · rw [if_neg h2]; simp [btreeGet]

/-!  Totality of the repetition combinators for consuming parsers. -/

theorem zero_or_more_total_aux :
    ∀ (n : Nat) {α : Type} (p : CParser α) (input : Str), input.length ≤ n →
      (∀ i : Str, (∃ r a, p i = .ok r a ∧ r.length < i.length) ∨ (∃ e, p i = .err e)) →
      ∃ rest items, zero_or_more p input = .ok rest items := by
  intro n
  induction n with
  | zero =>
    intro α p input hlen hp
    rcases hp input with ⟨r, a, _, hlt⟩ | ⟨e, herr⟩
    · omega
    · exact ⟨input, [], zero_or_more_of_err herr⟩
  | succ k ih =>
    intro α p input hlen hp
    rcases hp input with ⟨r, a, hok, hlt⟩ | ⟨e, herr⟩
    · obtain ⟨rest, items, hz⟩ := ih p r (by omega) hp
      refine ⟨rest, a :: items, ?_⟩
      rw [zero_or_more_of_ok hok hlt, hz]
    · exact ⟨input, [], zero_or_more_of_err herr⟩

theorem one_or_more_ne_nil {p : CParser α} {input rest : Str} {items : List α}
    (h : one_or_more p input = .ok rest items) : items ≠ [] := by
  unfold one_or_more at h
  cases hp : p input with
  | ok next a =>
    rw [hp] at h
    dsimp only at h
    by_cases hlen : next.length < input.length
    · rw [if_pos hlen] at h
      cases hz : zomLoop p (next.length + 1) next with
      | ok r l =>
        rw [hz] at h
        injection h with _ h2
        rw [← h2]
        simp
      | err e => rw [hz] at h; exact PResult.noConfusion h
      | panic => rw [hz] at h; exact PResult.noConfusion h
      | diverge => rw [hz] at h; exact PResult.noConfusion h
    · rw [if_neg hlen] at h; exact PResult.noConfusion h
  | err e => rw [hp] at h; exact PResult.noConfusion h
  | panic => rw [hp] at h; exact PResult.noConfusion h
  | diverge => rw [hp] at h; exact PResult.noConfusion h

/-!  Claims. -/

/-- C1: the spec demands that the four comma-policy inputs `[1,]`, `[,1]`,
`\x7b"a":1,\x7d` and `\x7b,"a":1\x7d` all fail to parse.  The code rejects
the two trailing-comma inputs but, because the optional first element of the
zero_or_one/zero_or_more split fails silently, it ACCEPTS the two
leading-comma inputs, parsing `[,1]` as the one-element array [1] and
`\x7b,"a":1\x7d` as the one-pair object — a slip relative to the JSON comma
rules the code's own comments invoke. -/
theorem claim_C1_comma_inputs :
    parse ("[1,]".toList) = .err (",]".toList) ∧
    parse ("\x7b\"a\":1,\x7d".toList) = .err ("\x7b\"a\":1,\x7d".toList) ∧
    parse ("[,1]".toList) = .ok (.array [.number (.uint 1)]) ∧
    parse ("\x7b,\"a\":1\x7d".toList) = .ok (.object [("a".toList, .number (.uint 1))]) :=
  ⟨rfl, rfl, rfl, rfl⟩

/-- C3: the spec says the integer lexers fail (not panic) when the digit
string does not fit the target width; the code instead calls unwrap on the
conversion and panics on overflow (its own TODO comments flag exactly this).
2^64 overflows uint, and 9223372036854775808 > i64::MAX overflows int even
though the negated value would fit; the in-range neighbours succeed. -/
theorem claim_C3_width_overflow :
    uint ("18446744073709551616".toList) = .panic ∧
    int ("-9223372036854775808".toList) = .panic ∧
    uint ("18446744073709551615".toList) = .ok [] 18446744073709551615 ∧
    int ("-9223372036854775807".toList) = .ok [] (-9223372036854775807) :=
  ⟨rfl, rfl, rfl, rfl⟩

/-- C4: duplicate object keys resolve with last write wins: the concrete
document from the spec parses with "a" bound to 2, and in general inserting
a key into the map model makes lookup return the new value regardless of any
previous binding. -/
theorem claim_C4_last_write_wins :
    parse ("\x7b\"a\":1,\"a\":2\x7d".toList) =
      .ok (.object [("a".toList, .number (.uint 2))]) ∧
    (∀ (m : List (Str × Value)) (k : Str) (v : Value),
      btreeGet (btreeInsert m k v) k = some v) :=
  ⟨rfl, btreeGet_insert_self⟩

/-- C5: when the first parser fails, either runs the second parser on exactly
the original input; when the first parser succeeds, its result is returned
(the second alternative is not consulted: the output equals the first
parser's success verbatim). -/
theorem claim_C5_either_backtracks :
    ∀ (α : Type) (p1 p2 : CParser α) (input : Str),
      (∀ e : Str, p1 input = .err e → either p1 p2 input = p2 input) ∧
      (∀ (next : Str) (a : α), p1 input = .ok next a → either p1 p2 input = .ok next a) :=
  fun _ _ _ _ =>
    ⟨fun _ h => either_of_err h, fun _ _ h => either_of_ok h⟩

/-- C5 witness: concrete instances of both branches of the alternation
contract. -/
theorem claim_C5_witness :
    either (match_literal ['a']) (match_literal ['b']) ['b'] = match_literal ['b'] ['b'] ∧
    either (match_literal ['a']) (match_literal ['b']) ['a'] = .ok [] () :=
  ⟨(claim_C5_either_backtracks Unit (match_literal ['a']) (match_literal ['b']) ['b']).1 ['b'] rfl,
   (claim_C5_either_backtracks Unit (match_literal ['a']) (match_literal ['b']) ['a']).2 [] () rfl⟩

/-- C8 counterexample: the claim says int succeeds on digit inputs with or
without a leading minus sign, but int on "123" fails — the minus sign is
mandatory (the code's doc comment says it parses negative numbers). -/
theorem claim_C8_counterexample : int ("123".toList) = .err ("123".toList) := rfl

/-- C8 amended, over the ASCII fragment where the embedded numeric predicate
coincides with Rust char::is_numeric: on an input made of one or more ASCII
digits whose boundary (the following character, when there is one) is ASCII
and not a digit, uint succeeds and folds the digit run into the unsigned
integer it denotes (width permitting); int REQUIRES exactly one leading
minus sign in front of such a run, producing the negated value (width
permitting); and int fails on any input that does not start with the minus
sign — the minus is not optional.  No success is claimed when the character
after the digit run is outside ASCII: a Unicode numeric character there
(e.g. U+0663) is consumed into the run by the real lexer and then makes the
unwrap panic, the failure mode established for C3. -/
theorem claim_C8_amended :
    (∀ (ds rest : Str), ds ≠ [] → (∀ c ∈ ds, isAsciiDigit c = true) →
      (∀ c, rest.head? = some c → c.toNat < 128 ∧ isAsciiDigit c = false) →
      digitsVal ds < 2 ^ 64 →
      uint (ds ++ rest) = .ok rest (digitsVal ds)) ∧
    (∀ (ds rest : Str), ds ≠ [] → (∀ c ∈ ds, isAsciiDigit c = true) →
      (∀ c, rest.head? = some c → c.toNat < 128 ∧ isAsciiDigit c = false) →
      digitsVal ds < 2 ^ 63 →
      int ('-' :: (ds ++ rest)) = .ok rest (-(digitsVal ds : Int))) ∧
    (∀ (c : Char) (cs : Str), c ≠ '-' → int (c :: cs) = .err (c :: cs)) ∧
    int [] = .err [] :=
  ⟨fun _ _ h1 h2 h3 h4 => uint_digits h1 h2 (fun c hc => (h3 c hc).2) h4,
   fun _ _ h1 h2 h3 h4 => int_digits h1 h2 (fun c hc => (h3 c hc).2) h4,
   fun _ _ h => int_no_minus h, rfl⟩

/-- C8 witness: the amended lexical contracts at concrete inputs. -/
theorem claim_C8_witness :
    uint ("42x".toList) = .ok ("x".toList) 42 ∧
    int ("-7,".toList) = .ok (",".toList) (-7) ∧
    int ("9".toList) = .err ("9".toList) := by
  refine ⟨?_, ?_, ?_⟩
  · exact claim_C8_amended.1 ("42".toList) ("x".toList) (by decide)
      (by decide) (fun c hc => by injection hc with h2; rw [← h2]; decide) (by decide)
  · exact claim_C8_amended.2.1 ("7".toList) (",".toList) (by decide)
      (by decide) (fun c hc => by injection hc with h2; rw [← h2]; decide) (by decide)
  · exact claim_C8_amended.2.2.1 '9' [] (by decide)

/-- C9 counterexample: zero_or_more applied to a parser that succeeds
without consuming (match_literal of the empty literal) does not succeed: the
Rust while-let loop repeats the same pure call forever. -/
theorem claim_C9_counterexample :
    zero_or_more (match_literal []) [] = .diverge := rfl

/-- C9 amended: zero_or_more never returns a failure, exits with the empty
collection as soon as the parser fails, and collects each consuming success
in order in front of the rest of the loop; whenever every application of the
parser either fails or succeeds while strictly consuming input, zero_or_more
succeeds; a success without consumption makes the repetition loop forever
instead.  one_or_more fails exactly at a first-application failure
(returning the original input) and otherwise behaves as the first output
consed onto the remaining loop, so on success its collection is nonempty. -/
theorem claim_C9_repetition :
    (∀ (α : Type) (p : CParser α) (input e : Str), zero_or_more p input ≠ .err e) ∧
    (∀ (α : Type) (p : CParser α) (input e : Str),
      p input = .err e → zero_or_more p input = .ok input []) ∧
    (∀ (α : Type) (p : CParser α) (input next : Str) (a : α),
      p input = .ok next a → next.length < input.length →
      zero_or_more p input =
        match zero_or_more p next with
        | .ok rest items => .ok rest (a :: items)
        | .err e => .err e
        | .panic => .panic
        | .diverge => .diverge) ∧
    (∀ (α : Type) (p : CParser α) (input next : Str) (a : α),
      p input = .ok next a → ¬ next.length < input.length →
      zero_or_more p input = .diverge) ∧
    (∀ (α : Type) (p : CParser α),
      (∀ i : Str, (∃ r a, p i = .ok r a ∧ r.length < i.length) ∨ (∃ e, p i = .err e)) →
      ∀ input : Str, ∃ rest items, zero_or_more p input = .ok rest items) ∧
    (∀ (α : Type) (p : CParser α) (input e : Str),
      p input = .err e → one_or_more p input = .err input) ∧
    (∀ (α : Type) (p : CParser α) (input next : Str) (a : α),
      p input = .ok next a → next.length < input.length →
      one_or_more p input =
        match zero_or_more p next with
        | .ok rest items => .ok rest (a :: items)
        | .err e => .err e
        | .panic => .panic
        | .diverge => .diverge) ∧
    (∀ (α : Type) (p : CParser α) (input rest : Str) (items : List α),
      one_or_more p input = .ok rest items → items ≠ []) :=
  ⟨fun _ p i e => zero_or_more_ne_err p i e,
   fun _ _ _ _ h => zero_or_more_of_err h,
   fun _ _ _ _ _ h hl => zero_or_more_of_ok h hl,
   fun _ _ _ _ _ h hl => zero_or_more_of_ok_stuck h hl,
   fun _ p hp input => zero_or_more_total_aux input.length p input le_rfl hp,
   fun _ _ _ _ h => one_or_more_of_err h,
   fun _ _ _ _ _ h hl => one_or_more_of_ok h hl,
   fun _ _ _ _ _ h => one_or_more_ne_nil h⟩

/-- C9 witness: the repetition contracts at concrete inputs. -/
theorem claim_C9_witness :
    zero_or_more (match_literal ['h', 'a']) ("hahaha!".toList) = .ok ("!".toList) [(), (), ()] ∧
    one_or_more (match_literal ['h', 'a']) ("xhah".toList) = .err ("xhah".toList) := by
  constructor
  · rw [claim_C9_repetition.2.2.1 Unit (match_literal ['h', 'a'])
      ("hahaha!".toList) ("haha!".toList) () rfl (by decide)]
    rfl
  · exact claim_C9_repetition.2.2.2.2.2.1 Unit (match_literal ['h', 'a'])
      ("xhah".toList) ("xhah".toList) rfl

/-- C10: the top-level parse keeps only the Value of a successful json_value
run and silently discards whatever un-parsed input remains; in particular
"null garbage" parses to Null. -/
theorem claim_C10_trailing_garbage :
    (∀ (input rest : Str) (v : Value),
      json_value (input.length + 1) input = .ok rest v → parse input = .ok v) ∧
    parse ("null garbage".toList) = .ok .null := by
  constructor
  · intro input rest v h
    unfold parse
    rw [h]
  · rfl

/-- C10 witness: the discard contract applied at the concrete garbage input. -/
theorem claim_C10_witness : parse ("null garbage".toList) = .ok .null :=
  claim_C10_trailing_garbage.1 ("null garbage".toList) ("garbage".toList) .null rfl

/-- quoted_string on empty input: the opening quote is missing. -/
theorem quoted_string_nil : quoted_string [] = .err [] := rfl

/-- quoted_string fails when the input does not start with a quote. -/
theorem quoted_string_not_quote {c : Char} {tail : Str} (hc : c ≠ '"') :
    quoted_string (c :: tail) = .err (c :: tail) := by
  unfold quoted_string
  exact map_of_err (right_of_err1 (match_literal_head_ne hc))

/-- The head of the non-quote run's residue is always a quote. -/
theorem dropWhile_quote_head :
    ∀ (tail : Str) (d : Char) (rest : Str),
      tail.dropWhile (fun c => c ≠ '"') = d :: rest → d = '"' := by
  intro tail
  induction tail with
  | nil => intro d rest h; simp at h
  | cons c cs ih =>
    intro d rest h
    rw [List.dropWhile_cons] at h
    by_cases hc : c = '"'
    · rw [if_neg (by simp [hc])] at h
      injection h with h1 _
      rw [← h1, hc]
    · rw [if_pos (by simp [hc])] at h
      exact ih d rest h

/-- quoted_string succeeds when the non-quote run is closed by a quote. -/
theorem quoted_string_closed {tail rest : Str}
    (hdrop : tail.dropWhile (fun c => c ≠ '"') = '"' :: rest) :
    quoted_string ('"' :: tail) = .ok rest (tail.takeWhile (fun c => c ≠ '"')) := by
  have h1 : match_literal ['"'] ('"' :: tail) = .ok tail () := by
    simpa using match_literal_append ['"'] tail
  have h2 : zero_or_more (pred any_char (fun c => c ≠ '"')) tail =
      .ok ('"' :: rest) (tail.takeWhile (fun c => c ≠ '"')) := by
    rw [zero_or_more_pred_any_char, hdrop]
  have h3 : match_literal ['"'] ('"' :: rest) = .ok rest () := by
    simpa using match_literal_append ['"'] rest
  unfold quoted_string
  exact map_of_ok (right_ok_ok h1 (left_ok_ok h2 h3))

/-- quoted_string fails when the input ends before a closing quote. -/
theorem quoted_string_unterminated {tail : Str}
    (hdrop : tail.dropWhile (fun c => c ≠ '"') = []) :
    quoted_string ('"' :: tail) = .err [] := by
  have h1 : match_literal ['"'] ('"' :: tail) = .ok tail () := by
    simpa using match_literal_append ['"'] tail
  have h2 : zero_or_more (pred any_char (fun c => c ≠ '"')) tail =
      .ok [] (tail.takeWhile (fun c => c ≠ '"')) := by
    rw [zero_or_more_pred_any_char, hdrop]
  have h3 : match_literal ['"'] ([] : Str) = .err [] := rfl
  unfold quoted_string
  exact map_of_err (right_ok_err h1 (left_ok_err h2 h3))

/-- C6: quoted_string succeeds exactly on a leading quote, a run of
non-quote characters (a backslash is an ordinary character, no escape
decoding), and a closing quote, returning exactly the intermediate
characters; on every other input it fails (it never panics or loops), and in
particular the unterminated input fails. -/
theorem claim_C6_quoted_string :
    (∀ (input rest s : Str),
      quoted_string input = .ok rest s ↔
        (input = '"' :: (s ++ '"' :: rest) ∧ ∀ c ∈ s, c ≠ '"')) ∧
    (∀ input : Str,
      (∃ rest s, quoted_string input = .ok rest s) ∨
      (∃ e, quoted_string input = .err e)) ∧
    quoted_string ("\"unterminated".toList) = .err [] := by
  refine ⟨?_, ?_, rfl⟩
  · intro input rest s
    constructor
    · intro h
      cases input with
      | nil => rw [quoted_string_nil] at h; exact PResult.noConfusion h
      | cons c tail =>
        by_cases hc : c = '"'
        · subst hc
          cases hdrop : tail.dropWhile (fun c => c ≠ '"') with
          | nil =>
            rw [quoted_string_unterminated hdrop] at h
            exact PResult.noConfusion h
          | cons d rest2 =>
            have hd := dropWhile_quote_head tail d rest2 hdrop
            subst hd
            rw [quoted_string_closed hdrop] at h
            injection h with h1 h2
            subst h1
            subst h2
            refine ⟨?_, ?_⟩
            · have hsplit := List.takeWhile_append_dropWhile
                (p := fun c => decide (c ≠ '"')) (l := tail)
              rw [hdrop] at hsplit
              exact congrArg (List.cons '"') hsplit.symm
            · intro c hcmem
              have := List.mem_takeWhile_imp hcmem
              simpa using this
        · rw [quoted_string_not_quote hc] at h
          exact PResult.noConfusion h
    · intro hh
      obtain ⟨hin, hs⟩ := hh
      subst hin
      exact quoted_string_append hs
  · intro input
    cases input with
    | nil => exact Or.inr ⟨[], quoted_string_nil⟩
    | cons c tail =>
      by_cases hc : c = '"'
      · subst hc
        cases hdrop : tail.dropWhile (fun c => c ≠ '"') with
        | nil => exact Or.inr ⟨[], quoted_string_unterminated hdrop⟩
        | cons d rest2 =>
          have hd := dropWhile_quote_head tail d rest2 hdrop
          subst hd
          exact Or.inl ⟨rest2, tail.takeWhile (fun c => c ≠ '"'),
            quoted_string_closed hdrop⟩
      · exact Or.inr ⟨c :: tail, quoted_string_not_quote hc⟩

/-- C6 witness: the characterization applied at a concrete quoted input,
in both directions. -/
theorem claim_C6_witness :
    ("\"ab\"rest".toList = '"' :: ("ab".toList ++ '"' :: "rest".toList) ∧
      ∀ c ∈ "ab".toList, c ≠ '"') ∧
    quoted_string ("\"ab\"rest".toList) = .ok ("rest".toList) ("ab".toList) :=
  ⟨(claim_C6_quoted_string.1 ("\"ab\"rest".toList) ("rest".toList) ("ab".toList)).mp rfl,
   (claim_C6_quoted_string.1 ("\"ab\"rest".toList) ("rest".toList) ("ab".toList)).mpr
     ⟨rfl, by decide⟩⟩

/-!  Suffix monotonicity of every parser of the engine. -/

theorem suffixMono_any_char : SuffixMono any_char := by
  intro input rest a h
  cases input with
  | nil => exact PResult.noConfusion h
  | cons c t =>
    unfold any_char at h
    dsimp only at h
    injection h with h1 _
    rw [← h1]
    exact List.suffix_cons c t

theorem suffixMono_match_literal (lit : Str) : SuffixMono (match_literal lit) := by
  intro input rest a h
  unfold match_literal at h
  by_cases hp : input.take lit.length = lit
  · rw [if_pos hp] at h
    injection h with h1 _
    rw [← h1]
    exact List.drop_suffix _ _
  · rw [if_neg hp] at h
    exact PResult.noConfusion h

theorem suffixMono_pair {p1 : CParser α} {p2 : CParser β}
    (h1 : SuffixMono p1) (h2 : SuffixMono p2) : SuffixMono (pair p1 p2) := by
  intro input rest a h
  unfold pair at h
  cases hq1 : p1 input with
  | ok n r1 =>
    rw [hq1] at h
    dsimp only at h
    cases hq2 : p2 n with
    | ok l r2 =>
      rw [hq2] at h
      dsimp only at h
      injection h with hl _
      rw [← hl]
      exact (h2 n l r2 hq2).trans (h1 input n r1 hq1)
    | err e => rw [hq2] at h; exact PResult.noConfusion h
    | panic => rw [hq2] at h; exact PResult.noConfusion h
    | diverge => rw [hq2] at h; exact PResult.noConfusion h
  | err e => rw [hq1] at h; exact PResult.noConfusion h
  | panic => rw [hq1] at h; exact PResult.noConfusion h
  | diverge => rw [hq1] at h; exact PResult.noConfusion h

theorem suffixMono_map {p : CParser α} {f : α → β}
    (hp : SuffixMono p) : SuffixMono (map p f) := by
  intro input rest b h
  unfold map at h
  cases hq : p input with
  | ok n r =>
    rw [hq] at h
    dsimp only at h
    injection h with hl _
    rw [← hl]
    exact hp input n r hq
  | err e => rw [hq] at h; exact PResult.noConfusion h
  | panic => rw [hq] at h; exact PResult.noConfusion h
  | diverge => rw [hq] at h; exact PResult.noConfusion h

theorem suffixMono_mapPanic {p : CParser α} {f : α → Option β}
    (hp : SuffixMono p) : SuffixMono (mapPanic p f) := by
  intro input rest b h
  unfold mapPanic at h
  cases hq : p input with
  | ok n r =>
    rw [hq] at h
    dsimp only at h
    cases hf : f r with
    | some v =>
      rw [hf] at h
      injection h with hl _
      rw [← hl]
      exact hp input n r hq
    | none => rw [hf] at h; exact PResult.noConfusion h
  | err e => rw [hq] at h; exact PResult.noConfusion h
  | panic => rw [hq] at h; exact PResult.noConfusion h
  | diverge => rw [hq] at h; exact PResult.noConfusion h

theorem suffixMono_and_then {p : CParser α} {f : α → CParser β}
    (hp : SuffixMono p) (hf : ∀ a, SuffixMono (f a)) :
    SuffixMono (and_then p f) := by
  intro input rest b h
  unfold and_then at h
  cases hq : p input with
  | ok n r =>
    rw [hq] at h
    dsimp only at h
    exact (hf r n rest b h).trans (hp input n r hq)
  | err e => rw [hq] at h; exact PResult.noConfusion h
  | panic => rw [hq] at h; exact PResult.noConfusion h
  | diverge => rw [hq] at h; exact PResult.noConfusion h

theorem suffixMono_left {p1 : CParser α} {p2 : CParser β}
    (h1 : SuffixMono p1) (h2 : SuffixMono p2) : SuffixMono (left p1 p2) :=
  suffixMono_map (suffixMono_pair h1 h2)

theorem suffixMono_right {p1 : CParser α} {p2 : CParser β}
    (h1 : SuffixMono p1) (h2 : SuffixMono p2) : SuffixMono (right p1 p2) :=
  suffixMono_map (suffixMono_pair h1 h2)

theorem suffixMono_zero_or_one {p : CParser α}
    (hp : SuffixMono p) : SuffixMono (zero_or_one p) := by
  intro input rest l h
  unfold zero_or_one at h
  cases hq : p input with
  | ok n r =>
    rw [hq] at h
    dsimp only at h
    injection h with hl _
    rw [← hl]
    exact hp input n r hq
  | err e =>
    rw [hq] at h
    dsimp only at h
    injection h with hl _
    rw [← hl]
  | panic => rw [hq] at h; exact PResult.noConfusion h
  | diverge => rw [hq] at h; exact PResult.noConfusion h

theorem suffixMono_zomLoop {p : CParser α} (hp : SuffixMono p) :
    ∀ (f : Nat) (input rest : Str) (l : List α),
      zomLoop p f input = .ok rest l → rest <:+ input := by
  intro f
  induction f with
  | zero => intro input rest l h; exact PResult.noConfusion h
  | succ k ih =>
    intro input rest l h
    rw [zomLoop] at h
    cases hq : p input with
    | ok next item =>
      rw [hq] at h
      dsimp only at h
      by_cases hlen : next.length < input.length
      · rw [if_pos hlen] at h
        cases hz : zomLoop p k next with
        | ok r l2 =>
          rw [hz] at h
          dsimp only at h
          injection h with hl _
          rw [← hl]
          exact (ih next r l2 hz).trans (hp input next item hq)
        | err e => rw [hz] at h; exact PResult.noConfusion h
        | panic => rw [hz] at h; exact PResult.noConfusion h
        | diverge => rw [hz] at h; exact PResult.noConfusion h
      · rw [if_neg hlen] at h; exact PResult.noConfusion h
    | err e =>
      rw [hq] at h
      dsimp only at h
      injection h with hl _
      rw [← hl]
    | panic => rw [hq] at h; exact PResult.noConfusion h
    | diverge => rw [hq] at h; exact PResult.noConfusion h

theorem suffixMono_zero_or_more {p : CParser α}
    (hp : SuffixMono p) : SuffixMono (zero_or_more p) :=
  fun input rest l h => suffixMono_zomLoop hp (input.length + 1) input rest l h

theorem suffixMono_one_or_more {p : CParser α}
    (hp : SuffixMono p) : SuffixMono (one_or_more p) := by
  intro input rest l h
  unfold one_or_more at h
  cases hq : p input with
  | ok next item =>
    rw [hq] at h
    dsimp only at h
    by_cases hlen : next.length < input.length
    · rw [if_pos hlen] at h
      cases hz : zomLoop p (next.length + 1) next with
      | ok r l2 =>
        rw [hz] at h
        dsimp only at h
        injection h with hl _
        rw [← hl]
        exact (suffixMono_zomLoop hp (next.length + 1) next r l2 hz).trans
          (hp input next item hq)
      | err e => rw [hz] at h; exact PResult.noConfusion h
      | panic => rw [hz] at h; exact PResult.noConfusion h
      | diverge => rw [hz] at h; exact PResult.noConfusion h
    · rw [if_neg hlen] at h; exact PResult.noConfusion h
  | err e => rw [hq] at h; exact PResult.noConfusion h
  | panic => rw [hq] at h; exact PResult.noConfusion h
  | diverge => rw [hq] at h; exact PResult.noConfusion h

theorem suffixMono_pred {p : CParser α} {f : α → Bool}
    (hp : SuffixMono p) : SuffixMono (pred p f) := by
  intro input rest a h
  unfold pred at h
  cases hq : p input with
  | ok n r =>
    rw [hq] at h
    dsimp only at h
    by_cases hf : f r = true
    · rw [if_pos hf] at h
      injection h with hl _
      rw [← hl]
      exact hp input n r hq
    · rw [if_neg hf] at h
      exact PResult.noConfusion h
  | err e => rw [hq] at h; exact PResult.noConfusion h
  | panic => rw [hq] at h; exact PResult.noConfusion h
  | diverge => rw [hq] at h; exact PResult.noConfusion h

theorem suffixMono_either {p1 p2 : CParser α}
    (h1 : SuffixMono p1) (h2 : SuffixMono p2) : SuffixMono (either p1 p2) := by
  intro input rest a h
  unfold either at h
  cases hq : p1 input with
  | ok n r =>
    rw [hq] at h
    dsimp only at h
    injection h with hl hv
    rw [hl, hv] at hq
    exact h1 input rest a hq
  | err e =>
    rw [hq] at h
    dsimp only at h
    exact h2 input rest a h
  | panic => rw [hq] at h; exact PResult.noConfusion h
  | diverge => rw [hq] at h; exact PResult.noConfusion h

theorem suffixMono_whitespace_char : SuffixMono whitespace_char :=
  suffixMono_pred suffixMono_any_char

theorem suffixMono_space0 : SuffixMono space0 :=
  suffixMono_zero_or_more suffixMono_whitespace_char

theorem suffixMono_space1 : SuffixMono space1 :=
  suffixMono_one_or_more suffixMono_whitespace_char

theorem suffixMono_trim {p : CParser α} (hp : SuffixMono p) : SuffixMono (trim p) :=
  suffixMono_right suffixMono_space0 (suffixMono_left hp suffixMono_space0)

theorem suffixMono_quoted_string : SuffixMono quoted_string :=
  suffixMono_map (suffixMono_right (suffixMono_match_literal _)
    (suffixMono_left (suffixMono_zero_or_more (suffixMono_pred suffixMono_any_char))
      (suffixMono_match_literal _)))

theorem suffixMono_uint : SuffixMono uint :=
  suffixMono_mapPanic (suffixMono_one_or_more (suffixMono_pred suffixMono_any_char))

theorem suffixMono_int : SuffixMono int :=
  suffixMono_and_then (suffixMono_match_literal _)
    (fun _ => suffixMono_mapPanic
      (suffixMono_one_or_more (suffixMono_pred suffixMono_any_char)))

theorem suffixMono_true_value : SuffixMono true_value :=
  suffixMono_map (suffixMono_match_literal _)

theorem suffixMono_false_value : SuffixMono false_value :=
  suffixMono_map (suffixMono_match_literal _)

theorem suffixMono_bool_value : SuffixMono bool_value :=
  suffixMono_either suffixMono_true_value suffixMono_false_value

theorem suffixMono_null_value : SuffixMono null_value :=
  suffixMono_map (suffixMono_match_literal _)

theorem suffixMono_string_value : SuffixMono string_value :=
  suffixMono_map suffixMono_quoted_string

theorem suffixMono_number_value : SuffixMono number_value :=
  suffixMono_either (suffixMono_map suffixMono_int) (suffixMono_map suffixMono_uint)

theorem suffixMono_primitive_value : SuffixMono primitive_value :=
  suffixMono_either suffixMono_bool_value
    (suffixMono_either suffixMono_null_value
      (suffixMono_either suffixMono_string_value suffixMono_number_value))

theorem suffixMono_object_pair {jv : CParser Value} (hjv : SuffixMono jv) :
    SuffixMono (object_pair jv) :=
  suffixMono_pair (suffixMono_trim suffixMono_quoted_string)
    (suffixMono_right (suffixMono_match_literal _) hjv)

theorem suffixMono_comma_preceded_object_pair {jv : CParser Value}
    (hjv : SuffixMono jv) : SuffixMono (comma_preceded_object_pair jv) :=
  suffixMono_right (suffixMono_match_literal _) (suffixMono_object_pair hjv)

theorem suffixMono_object_value {jv : CParser Value} (hjv : SuffixMono jv) :
    SuffixMono (object_value jv) :=
  suffixMono_and_then (suffixMono_match_literal _)
    (fun _ => suffixMono_map (suffixMono_left
      (suffixMono_pair (suffixMono_zero_or_one (suffixMono_object_pair hjv))
        (suffixMono_zero_or_more (suffixMono_comma_preceded_object_pair hjv)))
      (suffixMono_match_literal _)))

theorem suffixMono_comma_preceded_value {jv : CParser Value}
    (hjv : SuffixMono jv) : SuffixMono (comma_preceded_value jv) :=
  suffixMono_right (suffixMono_match_literal _) hjv

theorem suffixMono_array_value {jv : CParser Value} (hjv : SuffixMono jv) :
    SuffixMono (array_value jv) :=
  suffixMono_and_then (suffixMono_match_literal _)
    (fun _ => suffixMono_map (suffixMono_left
      (suffixMono_pair (suffixMono_zero_or_one hjv)
        (suffixMono_zero_or_more (suffixMono_comma_preceded_value hjv)))
      (suffixMono_match_literal _)))

theorem suffixMono_nonprimitive_value {jv : CParser Value} (hjv : SuffixMono jv) :
    SuffixMono (nonprimitive_value jv) :=
  suffixMono_either (suffixMono_object_value hjv) (suffixMono_array_value hjv)

theorem suffixMono_json_value : ∀ n : Nat, SuffixMono (json_value n) := by
  intro n
  induction n with
  | zero => intro input rest a h; exact PResult.noConfusion h
  | succ k ih =>
    rw [json_value]
    exact suffixMono_trim
      (suffixMono_either suffixMono_primitive_value (suffixMono_nonprimitive_value ih))

/-- C7: consumption is monotonic across the whole engine: for the lexical
primitives and every JSON grammar rule the remaining input on success is a
suffix of the input passed in, and every combinator preserves this property
of its argument parsers (so every parser built in the engine satisfies it,
including json_value at every recursion depth). -/
theorem claim_C7_suffix_invariant :
    SuffixMono any_char ∧
    (∀ lit : Str, SuffixMono (match_literal lit)) ∧
    SuffixMono whitespace_char ∧ SuffixMono space0 ∧ SuffixMono space1 ∧
    SuffixMono quoted_string ∧ SuffixMono uint ∧ SuffixMono int ∧
    (∀ (α β : Type) (p1 : CParser α) (p2 : CParser β),
      SuffixMono p1 → SuffixMono p2 → SuffixMono (pair p1 p2)) ∧
    (∀ (α β : Type) (p : CParser α) (f : α → β),
      SuffixMono p → SuffixMono (map p f)) ∧
    (∀ (α β : Type) (p : CParser α) (f : α → CParser β),
      SuffixMono p → (∀ a, SuffixMono (f a)) → SuffixMono (and_then p f)) ∧
    (∀ (α β : Type) (p1 : CParser α) (p2 : CParser β),
      SuffixMono p1 → SuffixMono p2 → SuffixMono (left p1 p2)) ∧
    (∀ (α β : Type) (p1 : CParser α) (p2 : CParser β),
      SuffixMono p1 → SuffixMono p2 → SuffixMono (right p1 p2)) ∧
    (∀ (α : Type) (p : CParser α), SuffixMono p → SuffixMono (zero_or_one p)) ∧
    (∀ (α : Type) (p : CParser α), SuffixMono p → SuffixMono (zero_or_more p)) ∧
    (∀ (α : Type) (p : CParser α), SuffixMono p → SuffixMono (one_or_more p)) ∧
    (∀ (α : Type) (p : CParser α) (f : α → Bool),
      SuffixMono p → SuffixMono (pred p f)) ∧
    (∀ (α : Type) (p1 p2 : CParser α),
      SuffixMono p1 → SuffixMono p2 → SuffixMono (either p1 p2)) ∧
    (∀ (α : Type) (p : CParser α), SuffixMono p → SuffixMono (trim p)) ∧
    SuffixMono true_value ∧ SuffixMono false_value ∧ SuffixMono bool_value ∧
    SuffixMono null_value ∧ SuffixMono string_value ∧ SuffixMono number_value ∧
    SuffixMono primitive_value ∧
    (∀ jv : CParser Value, SuffixMono jv →
      SuffixMono (object_pair jv) ∧ SuffixMono (comma_preceded_object_pair jv) ∧
      SuffixMono (object_value jv) ∧ SuffixMono (comma_preceded_value jv) ∧
      SuffixMono (array_value jv) ∧ SuffixMono (nonprimitive_value jv)) ∧
    (∀ n : Nat, SuffixMono (json_value n)) :=
  ⟨suffixMono_any_char, suffixMono_match_literal,
   suffixMono_whitespace_char, suffixMono_space0, suffixMono_space1,
   suffixMono_quoted_string, suffixMono_uint, suffixMono_int,
   fun _ _ _ _ h1 h2 => suffixMono_pair h1 h2,
   fun _ _ _ _ hp => suffixMono_map hp,
   fun _ _ _ _ hp hf => suffixMono_and_then hp hf,
   fun _ _ _ _ h1 h2 => suffixMono_left h1 h2,
   fun _ _ _ _ h1 h2 => suffixMono_right h1 h2,
   fun _ _ hp => suffixMono_zero_or_one hp,
   fun _ _ hp => suffixMono_zero_or_more hp,
   fun _ _ hp => suffixMono_one_or_more hp,
   fun _ _ _ hp => suffixMono_pred hp,
   fun _ _ _ h1 h2 => suffixMono_either h1 h2,
   fun _ _ hp => suffixMono_trim hp,
   suffixMono_true_value, suffixMono_false_value, suffixMono_bool_value,
   suffixMono_null_value, suffixMono_string_value, suffixMono_number_value,
   suffixMono_primitive_value,
   fun _ hjv =>
     ⟨suffixMono_object_pair hjv, suffixMono_comma_preceded_object_pair hjv,
      suffixMono_object_value hjv, suffixMono_comma_preceded_value hjv,
      suffixMono_array_value hjv, suffixMono_nonprimitive_value hjv⟩,
   suffixMono_json_value⟩

/-- C7 witness: the invariant applied at concrete inputs — a sequenced pair
of any_char steps on "abc" leaves the suffix "c", and json_value on
"null x" leaves the suffix "x". -/
theorem claim_C7_witness :
    ("c".toList <:+ "abc".toList) ∧ ("x".toList <:+ "null x".toList) :=
  ⟨claim_C7_suffix_invariant.2.2.2.2.2.2.2.2.1 Char Char any_char any_char
     claim_C7_suffix_invariant.1 claim_C7_suffix_invariant.1
     ("abc".toList) ("c".toList) ('a', 'b') rfl,
   (claim_C7_suffix_invariant.2.2.2.2.2.2.2.2.2.2.2.2.2.2.2.2.2.2.2.2.2.2.2.2.2.2.2
     : ∀ n : Nat, SuffixMono (json_value n)) 7 ("null x".toList) ("x".toList) .null rfl⟩

/-!  Head-failure lemmas for the grammar alternatives. -/

theorem ws_not_digit {c : Char} (h : rustIsWhitespace c = true) :
    isAsciiDigit c = false := by
  unfold rustIsWhitespace at h
  unfold isAsciiDigit
  simp only [Bool.or_eq_true, Bool.and_eq_true, decide_eq_true_eq] at h
  simp only [Bool.and_eq_false_iff, decide_eq_false_iff_not]
  omega

theorem digit_not_ws {c : Char} (h : isAsciiDigit c = true) :
    rustIsWhitespace c = false := by
  unfold isAsciiDigit at h
  unfold rustIsWhitespace
  simp only [Bool.and_eq_true, decide_eq_true_eq] at h
  simp only [Bool.or_eq_false_iff, Bool.and_eq_false_iff, decide_eq_false_iff_not]
  omega

/-- A digit head is none of the characters that start another alternative. -/
theorem digit_head_ne {c : Char} (h : isAsciiDigit c = true) :
    c ≠ 't' ∧ c ≠ 'f' ∧ c ≠ 'n' ∧ c ≠ '"' ∧ c ≠ '-' := by
  unfold isAsciiDigit at h
  simp only [Bool.and_eq_true, decide_eq_true_eq] at h
  refine ⟨?_, ?_, ?_, ?_, ?_⟩ <;>
    { intro he; rw [he] at h; revert h; decide }

/-- primitive_value fails on a head character that starts none of the
primitive alternatives. -/
theorem primitive_value_err_head {c : Char} {rest : Str}
    (ht : c ≠ 't') (hf : c ≠ 'f') (hn : c ≠ 'n') (hq : c ≠ '"')
    (hm : c ≠ '-') (hd : isAsciiDigit c = false) :
    primitive_value (c :: rest) = .err (c :: rest) := by
  have htv : true_value (c :: rest) = .err (c :: rest) :=
    map_of_err (match_literal_head_ne ht)
  have hfv : false_value (c :: rest) = .err (c :: rest) :=
    map_of_err (match_literal_head_ne hf)
  have hbv : bool_value (c :: rest) = .err (c :: rest) := by
    unfold bool_value
    rw [either_of_err htv]
    exact hfv
  have hnv : null_value (c :: rest) = .err (c :: rest) :=
    map_of_err (match_literal_head_ne hn)
  have hsv : string_value (c :: rest) = .err (c :: rest) :=
    map_of_err (quoted_string_not_quote hq)
  have hiv : int (c :: rest) = .err (c :: rest) := int_no_minus hm
  have huv : uint (c :: rest) = .err (c :: rest) := by
    unfold uint
    exact mapPanic_of_err
      (one_or_more_pred_cons_neg (by simp [rustIsNumeric, hd]))
  have hnum : number_value (c :: rest) = .err (c :: rest) := by
    unfold number_value
    rw [either_of_err (map_of_err hiv)]
    exact map_of_err huv
  unfold primitive_value
  rw [either_of_err hbv, either_of_err hnv, either_of_err hsv]
  exact hnum

/-- nonprimitive_value fails on a head character that is neither an opening
brace nor an opening bracket. -/
theorem nonprimitive_value_err_head {jv : CParser Value} {c : Char} {rest : Str}
    (hob : c ≠ '\x7b') (har : c ≠ '[') :
    nonprimitive_value jv (c :: rest) = .err (c :: rest) := by
  unfold nonprimitive_value object_value array_value
  rw [either_of_err (and_then_of_err (match_literal_head_ne hob))]
  exact and_then_of_err (match_literal_head_ne har)

/-- json_value (at positive fuel) fails on a head character that starts no
value alternative and is not whitespace, returning the whole input. -/
theorem json_value_err_head {m : Nat} {c : Char} {rest : Str}
    (hws : rustIsWhitespace c = false)
    (ht : c ≠ 't') (hf : c ≠ 'f') (hn : c ≠ 'n') (hq : c ≠ '"')
    (hm : c ≠ '-') (hd : isAsciiDigit c = false)
    (hob : c ≠ '\x7b') (har : c ≠ '[') :
    json_value (m + 1) (c :: rest) = .err (c :: rest) := by
  show trim (either primitive_value (nonprimitive_value (json_value m)))
    (c :: rest) = .err (c :: rest)
  have hsp : space0 (c :: rest) = .ok (c :: rest) [] := space0_head_not_ws hws
  have hp : either primitive_value (nonprimitive_value (json_value m))
      (c :: rest) = .err (c :: rest) := by
    rw [either_of_err (primitive_value_err_head ht hf hn hq hm hd)]
    exact nonprimitive_value_err_head hob har
  unfold trim
  exact right_ok_err hsp (left_of_err1 hp)

/-- object_pair fails on a head character that is not a quote and not
whitespace (the key must open with a quote). -/
theorem object_pair_err_head {jv : CParser Value} {c : Char} {rest : Str}
    (hq : c ≠ '"') (hws : rustIsWhitespace c = false) :
    object_pair jv (c :: rest) = .err (c :: rest) := by
  unfold object_pair trim
  exact pair_of_err1
    (right_ok_err (space0_head_not_ws hws)
      (left_of_err1 (quoted_string_not_quote hq)))

/-!  The primitive value cores succeed in front of any digit-free boundary. -/

theorem core_null {jv : CParser Value} {rest : Str} :
    either primitive_value (nonprimitive_value jv) ("null".toList ++ rest) =
      .ok rest Value.null := by
  have htv : true_value ("null".toList ++ rest) = .err ("null".toList ++ rest) :=
    map_of_err (match_literal_head_ne (by decide))
  have hfv : false_value ("null".toList ++ rest) = .err ("null".toList ++ rest) :=
    map_of_err (match_literal_head_ne (by decide))
  have hbv : bool_value ("null".toList ++ rest) = .err ("null".toList ++ rest) := by
    unfold bool_value
    rw [either_of_err htv]
    exact hfv
  have hnv : null_value ("null".toList ++ rest) = .ok rest Value.null :=
    map_of_ok (match_literal_append _ _)
  apply either_of_ok
  unfold primitive_value
  rw [either_of_err hbv]
  exact either_of_ok hnv

theorem core_true {jv : CParser Value} {rest : Str} :
    either primitive_value (nonprimitive_value jv) ("true".toList ++ rest) =
      .ok rest (Value.bool true) := by
  have htv : true_value ("true".toList ++ rest) = .ok rest (Value.bool true) :=
    map_of_ok (match_literal_append _ _)
  apply either_of_ok
  unfold primitive_value
  apply either_of_ok
  unfold bool_value
  exact either_of_ok htv

theorem core_false {jv : CParser Value} {rest : Str} :
    either primitive_value (nonprimitive_value jv) ("false".toList ++ rest) =
      .ok rest (Value.bool false) := by
  have htv : true_value ("false".toList ++ rest) = .err ("false".toList ++ rest) :=
    map_of_err (match_literal_head_ne (by decide))
  have hfv : false_value ("false".toList ++ rest) = .ok rest (Value.bool false) :=
    map_of_ok (match_literal_append _ _)
  apply either_of_ok
  unfold primitive_value
  apply either_of_ok
  unfold bool_value
  rw [either_of_err htv]
  exact hfv

theorem core_string {jv : CParser Value} {content rest : Str}
    (h : ∀ c ∈ content, c ≠ '"') :
    either primitive_value (nonprimitive_value jv)
      ('"' :: (content ++ '"' :: rest)) = .ok rest (Value.string content) := by
  have htv : true_value ('"' :: (content ++ '"' :: rest)) =
      .err ('"' :: (content ++ '"' :: rest)) :=
    map_of_err (match_literal_head_ne (by decide))
  have hfv : false_value ('"' :: (content ++ '"' :: rest)) =
      .err ('"' :: (content ++ '"' :: rest)) :=
    map_of_err (match_literal_head_ne (by decide))
  have hbv : bool_value ('"' :: (content ++ '"' :: rest)) =
      .err ('"' :: (content ++ '"' :: rest)) := by
    unfold bool_value
    rw [either_of_err htv]
    exact hfv
  have hnv : null_value ('"' :: (content ++ '"' :: rest)) =
      .err ('"' :: (content ++ '"' :: rest)) :=
    map_of_err (match_literal_head_ne (by decide))
  have hsv : string_value ('"' :: (content ++ '"' :: rest)) =
      .ok rest (Value.string content) :=
    map_of_ok (quoted_string_append h)
  apply either_of_ok
  unfold primitive_value
  rw [either_of_err hbv, either_of_err hnv]
  exact either_of_ok hsv

theorem core_uint {jv : CParser Value} {ds rest : Str} (h1 : ds ≠ [])
    (h2 : ∀ c ∈ ds, isAsciiDigit c = true) (h3 : NoDigitHead rest)
    (h4 : digitsVal ds < 2 ^ 64) :
    either primitive_value (nonprimitive_value jv) (ds ++ rest) =
      .ok rest (Value.number (NumberValue.uint (digitsVal ds))) := by
  cases ds with
  | nil => exact absurd rfl h1
  | cons d ds2 =>
    have hd : isAsciiDigit d = true := h2 d (by simp)
    obtain ⟨hdt, hdf, hdn, hdq, hdm⟩ := digit_head_ne hd
    show either primitive_value (nonprimitive_value jv) (d :: (ds2 ++ rest)) =
      .ok rest (Value.number (NumberValue.uint (digitsVal (d :: ds2))))
    have htv : true_value (d :: (ds2 ++ rest)) = .err (d :: (ds2 ++ rest)) :=
      map_of_err (match_literal_head_ne hdt)
    have hfv : false_value (d :: (ds2 ++ rest)) = .err (d :: (ds2 ++ rest)) :=
      map_of_err (match_literal_head_ne hdf)
    have hbv : bool_value (d :: (ds2 ++ rest)) = .err (d :: (ds2 ++ rest)) := by
      unfold bool_value
      rw [either_of_err htv]
      exact hfv
    have hnv : null_value (d :: (ds2 ++ rest)) = .err (d :: (ds2 ++ rest)) :=
      map_of_err (match_literal_head_ne hdn)
    have hsv : string_value (d :: (ds2 ++ rest)) = .err (d :: (ds2 ++ rest)) :=
      map_of_err (quoted_string_not_quote hdq)
    have hiv : int (d :: (ds2 ++ rest)) = .err (d :: (ds2 ++ rest)) :=
      int_no_minus hdm
    have huv : uint (d :: (ds2 ++ rest)) =
        .ok rest (digitsVal (d :: ds2)) := by
      have huv0 : uint ((d :: ds2) ++ rest) = .ok rest (digitsVal (d :: ds2)) :=
        uint_digits (by simp) h2 h3 h4
      simpa [List.cons_append] using huv0
    have hnum : number_value (d :: (ds2 ++ rest)) =
        .ok rest (Value.number (NumberValue.uint (digitsVal (d :: ds2)))) := by
      unfold number_value
      rw [either_of_err (map_of_err hiv)]
      exact map_of_ok huv
    apply either_of_ok
    unfold primitive_value
    rw [either_of_err hbv, either_of_err hnv, either_of_err hsv]
    exact hnum

theorem core_int {jv : CParser Value} {ds rest : Str} (h1 : ds ≠ [])
    (h2 : ∀ c ∈ ds, isAsciiDigit c = true) (h3 : NoDigitHead rest)
    (h4 : digitsVal ds < 2 ^ 63) :
    either primitive_value (nonprimitive_value jv) ('-' :: (ds ++ rest)) =
      .ok rest (Value.number (NumberValue.int (-(digitsVal ds : Int)))) := by
  have htv : true_value ('-' :: (ds ++ rest)) = .err ('-' :: (ds ++ rest)) :=
    map_of_err (match_literal_head_ne (by decide))
  have hfv : false_value ('-' :: (ds ++ rest)) = .err ('-' :: (ds ++ rest)) :=
    map_of_err (match_literal_head_ne (by decide))
  have hbv : bool_value ('-' :: (ds ++ rest)) = .err ('-' :: (ds ++ rest)) := by
    unfold bool_value
    rw [either_of_err htv]
    exact hfv
  have hnv : null_value ('-' :: (ds ++ rest)) = .err ('-' :: (ds ++ rest)) :=
    map_of_err (match_literal_head_ne (by decide))
  have hsv : string_value ('-' :: (ds ++ rest)) = .err ('-' :: (ds ++ rest)) :=
    map_of_err (quoted_string_not_quote (by decide))
  have hiv : int ('-' :: (ds ++ rest)) = .ok rest (-(digitsVal ds : Int)) :=
    int_digits h1 h2 h3 h4
  apply either_of_ok
  unfold primitive_value
  rw [either_of_err hbv, either_of_err hnv, either_of_err hsv]
  unfold number_value
  exact either_of_ok (map_of_ok hiv)

/-!  Shape and boundary facts about rendered layouts. -/

theorem renderLay_head_not_ws :
    ∀ (L : Lay), wfLay L = true →
      ∃ (c : Char) (t : Str), renderLay L = c :: t ∧ rustIsWhitespace c = false := by
  intro L hwf
  cases L with
  | lnull => exact ⟨'n', _, rfl, by decide⟩
  | ltrue => exact ⟨'t', _, rfl, by decide⟩
  | lfalse => exact ⟨'f', _, rfl, by decide⟩
  | lstr content => exact ⟨'"', _, rfl, by decide⟩
  | luint ds =>
    cases ds with
    | nil => simp [wfLay] at hwf
    | cons d ds2 =>
      refine ⟨d, ds2, rfl, ?_⟩
      apply digit_not_ws
      simp only [wfLay, Bool.and_eq_true, List.all_cons] at hwf
      exact hwf.1.2.1
  | lint ds => exact ⟨'-', _, rfl, by decide⟩
  | larrEmpty => exact ⟨'[', _, rfl, by decide⟩
  | larr first rest => exact ⟨'[', _, rfl, by decide⟩
  | lobjEmpty => exact ⟨'\x7b', _, rfl, by decide⟩
  | lobj first rest => exact ⟨'\x7b', _, rfl, by decide⟩

theorem restOk_nil : RestOk [] := by
  intro c hc
  exact Option.noConfusion hc

theorem restOk_cons {c : Char} {t : Str}
    (h1 : rustIsWhitespace c = false) (h2 : isAsciiDigit c = false) :
    RestOk (c :: t) := by
  intro d hd
  injection hd with h3
  rw [← h3]
  exact ⟨h1, h2⟩

/-- The text after an array element starts with a comma or the closing
bracket. -/
theorem restOk_elems_bracket (es : LayElemList) (tail : Str) :
    RestOk (renderElems es ++ ']' :: tail) := by
  cases es with
  | nil => exact restOk_cons (by decide) (by decide)
  | cons e es2 =>
    show RestOk ((',' :: (renderElem e ++ renderElems es2)) ++ ']' :: tail)
    rw [List.cons_append]
    exact restOk_cons (by decide) (by decide)

/-- The text after an object pair starts with a comma or the closing brace. -/
theorem restOk_pairs_brace (ps : LayPairList) (tail : Str) :
    RestOk (renderPairs ps ++ '\x7d' :: tail) := by
  cases ps with
  | nil => exact restOk_cons (by decide) (by decide)
  | cons p ps2 =>
    show RestOk ((',' :: (renderPair p ++ renderPairs ps2)) ++ '\x7d' :: tail)
    rw [List.cons_append]
    exact restOk_cons (by decide) (by decide)

/-- A whitespace run followed by a value boundary has no digit head. -/
theorem noDigitHead_ws_append {w rest : Str}
    (hw : ∀ c ∈ w, rustIsWhitespace c = true) (hr : RestOk rest) :
    NoDigitHead (w ++ rest) := by
  cases w with
  | nil => exact fun c hc => (hr c hc).2
  | cons c w2 =>
    intro d hd
    rw [List.cons_append] at hd
    injection hd with h3
    rw [← h3]
    exact ws_not_digit (hw c (by simp))

/-!  Soundness of layouts: a rendered layout parses, in front of any value
boundary, to its whitespace-independent evaluation. -/

mutual

theorem layElem_sound : ∀ (e : LayElem) (n : Nat) (rest : Str),
    wfElem e = true → depthElem e ≤ n → RestOk rest →
    json_value n (renderElem e ++ rest) = .ok rest (evalElem e) := by
  intro e n rest hwf hdepth hrest
  obtain ⟨w1, core, w2⟩ := e
  simp only [wfElem, Bool.and_eq_true] at hwf
  obtain ⟨⟨hw1, hcore⟩, hw2⟩ := hwf
  have hw1a : ∀ c ∈ w1, rustIsWhitespace c = true := by simpa using hw1
  have hw2a : ∀ c ∈ w2, rustIsWhitespace c = true := by simpa using hw2
  simp only [depthElem] at hdepth
  obtain ⟨m, rfl⟩ : ∃ m, n = m + 1 := ⟨n - 1, by omega⟩
  have hdc : depthLay core ≤ m := by omega
  obtain ⟨c0, t0, hrender, hc0⟩ := renderLay_head_not_ws core hcore
  show trim (either primitive_value (nonprimitive_value (json_value m)))
    (renderElem (.mk w1 core w2) ++ rest) = .ok rest (evalLay core)
  rw [show renderElem (.mk w1 core w2) ++ rest =
      w1 ++ (renderLay core ++ (w2 ++ rest)) from by
    simp [renderElem, List.append_assoc]]
  have hsp1 : space0 (w1 ++ (renderLay core ++ (w2 ++ rest))) =
      .ok (renderLay core ++ (w2 ++ rest)) w1 := by
    apply space0_append hw1a
    intro c hc
    rw [hrender, List.cons_append] at hc
    injection hc with h3
    rw [← h3]
    exact hc0
  have hcoreok : either primitive_value (nonprimitive_value (json_value m))
      (renderLay core ++ (w2 ++ rest)) = .ok (w2 ++ rest) (evalLay core) :=
    layCore_sound core m (w2 ++ rest) hcore hdc (noDigitHead_ws_append hw2a hrest)
  have hsp2 : space0 (w2 ++ rest) = .ok rest w2 :=
    space0_append hw2a (fun c hc => (hrest c hc).1)
  unfold trim
  exact right_ok_ok hsp1 (left_ok_ok hcoreok hsp2)

theorem layCore_sound : ∀ (L : Lay) (m : Nat) (rest : Str),
    wfLay L = true → depthLay L ≤ m → NoDigitHead rest →
    either primitive_value (nonprimitive_value (json_value m))
      (renderLay L ++ rest) = .ok rest (evalLay L) := by
  intro L m rest hwf hdepth hrest
  cases L with
  | lnull => exact core_null
  | ltrue => exact core_true
  | lfalse => exact core_false
  | lstr content =>
    have h : ∀ c ∈ content, c ≠ '"' := by
      simp only [wfLay] at hwf
      simpa using hwf
    rw [show renderLay (.lstr content) ++ rest =
        '"' :: (content ++ '"' :: rest) from by simp [renderLay]]
    exact core_string h
  | luint ds =>
    simp only [wfLay, Bool.and_eq_true] at hwf
    obtain ⟨⟨hne, hall⟩, hlt⟩ := hwf
    have hne2 : ds ≠ [] := by
      intro h
      rw [h] at hne
      exact Bool.noConfusion hne
    have hall2 : ∀ c ∈ ds, isAsciiDigit c = true := by simpa using hall
    have hlt2 : digitsVal ds < 2 ^ 64 := of_decide_eq_true hlt
    exact core_uint hne2 hall2 hrest hlt2
  | lint ds =>
    simp only [wfLay, Bool.and_eq_true] at hwf
    obtain ⟨⟨hne, hall⟩, hlt⟩ := hwf
    have hne2 : ds ≠ [] := by
      intro h
      rw [h] at hne
      exact Bool.noConfusion hne
    have hall2 : ∀ c ∈ ds, isAsciiDigit c = true := by simpa using hall
    have hlt2 : digitsVal ds < 2 ^ 63 := of_decide_eq_true hlt
    rw [show renderLay (.lint ds) ++ rest = '-' :: (ds ++ rest) from by
      simp [renderLay]]
    exact core_int hne2 hall2 hrest hlt2
  | larrEmpty =>
    obtain ⟨k, rfl⟩ : ∃ k, m = k + 1 := by
      refine ⟨m - 1, ?_⟩
      simp only [depthLay] at hdepth
      omega
    rw [show renderLay .larrEmpty ++ rest = '[' :: (']' :: rest) from by
      simp [renderLay]]
    have hprim : primitive_value ('[' :: (']' :: rest)) =
        .err ('[' :: (']' :: rest)) :=
      primitive_value_err_head (by decide) (by decide) (by decide) (by decide)
        (by decide) (by decide)
    have hob : object_value (json_value (k + 1)) ('[' :: (']' :: rest)) =
        .err ('[' :: (']' :: rest)) := by
      unfold object_value
      exact and_then_of_err (match_literal_head_ne (by decide))
    have hjv : json_value (k + 1) (']' :: rest) = .err (']' :: rest) :=
      json_value_err_head (by decide) (by decide) (by decide) (by decide)
        (by decide) (by decide) (by decide) (by decide) (by decide)
    have hlit : match_literal ['['] ('[' :: (']' :: rest)) =
        .ok (']' :: rest) () := by
      simpa using match_literal_append ['['] (']' :: rest)
    have hz1 : zero_or_one (json_value (k + 1)) (']' :: rest) =
        .ok (']' :: rest) [] := zero_or_one_of_err hjv
    have hz2 : zero_or_more (comma_preceded_value (json_value (k + 1)))
        (']' :: rest) = .ok (']' :: rest) [] := by
      apply zero_or_more_of_err
      unfold comma_preceded_value
      exact right_of_err1 (match_literal_head_ne (by decide))
    have hcl : match_literal [']'] (']' :: rest) = .ok rest () := by
      simpa using match_literal_append [']'] rest
    have harr : array_value (json_value (k + 1)) ('[' :: (']' :: rest)) =
        .ok rest (Value.array []) := by
      unfold array_value
      rw [and_then_of_ok hlit]
      exact map_of_ok (left_ok_ok (pair_ok_ok hz1 hz2) hcl)
    rw [either_of_err hprim]
    unfold nonprimitive_value
    rw [either_of_err hob]
    exact harr
  | larr first es =>
    simp only [wfLay, Bool.and_eq_true] at hwf
    obtain ⟨hwfF, hwfEs⟩ := hwf
    simp only [depthLay] at hdepth
    have hdF : depthElem first ≤ m := le_trans (Nat.le_max_left _ _) hdepth
    have hdEs : depthElems es ≤ m := le_trans (Nat.le_max_right _ _) hdepth
    rw [show renderLay (.larr first es) ++ rest =
        '[' :: (renderElem first ++ (renderElems es ++ (']' :: rest))) from by
      simp [renderLay, List.append_assoc]]
    have hprim : primitive_value
        ('[' :: (renderElem first ++ (renderElems es ++ (']' :: rest)))) =
        .err ('[' :: (renderElem first ++ (renderElems es ++ (']' :: rest)))) :=
      primitive_value_err_head (by decide) (by decide) (by decide) (by decide)
        (by decide) (by decide)
    have hob : object_value (json_value m)
        ('[' :: (renderElem first ++ (renderElems es ++ (']' :: rest)))) =
        .err ('[' :: (renderElem first ++ (renderElems es ++ (']' :: rest)))) := by
      unfold object_value
      exact and_then_of_err (match_literal_head_ne (by decide))
    have hlit : match_literal ['[']
        ('[' :: (renderElem first ++ (renderElems es ++ (']' :: rest)))) =
        .ok (renderElem first ++ (renderElems es ++ (']' :: rest))) () := by
      simpa using match_literal_append ['[']
        (renderElem first ++ (renderElems es ++ (']' :: rest)))
    have hel : json_value m
        (renderElem first ++ (renderElems es ++ (']' :: rest))) =
        .ok (renderElems es ++ (']' :: rest)) (evalElem first) :=
      layElem_sound first m (renderElems es ++ (']' :: rest)) hwfF hdF
        (restOk_elems_bracket es rest)
    have hz1 : zero_or_one (json_value m)
        (renderElem first ++ (renderElems es ++ (']' :: rest))) =
        .ok (renderElems es ++ (']' :: rest)) [evalElem first] :=
      zero_or_one_of_ok hel
    have hz2 : zero_or_more (comma_preceded_value (json_value m))
        (renderElems es ++ (']' :: rest)) =
        .ok (']' :: rest) (evalElemList es) :=
      layElems_sound es m rest hwfEs hdEs
    have hcl : match_literal [']'] (']' :: rest) = .ok rest () := by
      simpa using match_literal_append [']'] rest
    have harr : array_value (json_value m)
        ('[' :: (renderElem first ++ (renderElems es ++ (']' :: rest)))) =
        .ok rest (Value.array (evalElem first :: evalElemList es)) := by
      unfold array_value
      rw [and_then_of_ok hlit]
      exact map_of_ok (left_ok_ok (pair_ok_ok hz1 hz2) hcl)
    rw [either_of_err hprim]
    unfold nonprimitive_value
    rw [either_of_err hob]
    exact harr
  | lobjEmpty =>
    rw [show renderLay .lobjEmpty ++ rest = '\x7b' :: ('\x7d' :: rest) from by
      simp [renderLay]]
    have hprim : primitive_value ('\x7b' :: ('\x7d' :: rest)) =
        .err ('\x7b' :: ('\x7d' :: rest)) :=
      primitive_value_err_head (by decide) (by decide) (by decide) (by decide)
        (by decide) (by decide)
    have hlit : match_literal ['\x7b'] ('\x7b' :: ('\x7d' :: rest)) =
        .ok ('\x7d' :: rest) () := by
      simpa using match_literal_append ['\x7b'] ('\x7d' :: rest)
    have hz1 : zero_or_one (object_pair (json_value m)) ('\x7d' :: rest) =
        .ok ('\x7d' :: rest) [] :=
      zero_or_one_of_err (object_pair_err_head (by decide) (by decide))
    have hz2 : zero_or_more (comma_preceded_object_pair (json_value m))
        ('\x7d' :: rest) = .ok ('\x7d' :: rest) [] := by
      apply zero_or_more_of_err
      unfold comma_preceded_object_pair
      exact right_of_err1 (match_literal_head_ne (by decide))
    have hcl : match_literal ['\x7d'] ('\x7d' :: rest) = .ok rest () := by
      simpa using match_literal_append ['\x7d'] rest
    have hobj : object_value (json_value m) ('\x7b' :: ('\x7d' :: rest)) =
        .ok rest (Value.object []) := by
      unfold object_value
      rw [and_then_of_ok hlit]
      exact map_of_ok (left_ok_ok (pair_ok_ok hz1 hz2) hcl)
    rw [either_of_err hprim]
    unfold nonprimitive_value
    exact either_of_ok hobj
  | lobj first ps =>
    simp only [wfLay, Bool.and_eq_true] at hwf
    obtain ⟨hwfF, hwfPs⟩ := hwf
    simp only [depthLay] at hdepth
    have hdF : depthPair first ≤ m := le_trans (Nat.le_max_left _ _) hdepth
    have hdPs : depthPairs ps ≤ m := le_trans (Nat.le_max_right _ _) hdepth
    rw [show renderLay (.lobj first ps) ++ rest =
        '\x7b' :: (renderPair first ++ (renderPairs ps ++ ('\x7d' :: rest))) from by
      simp [renderLay, List.append_assoc]]
    have hprim : primitive_value
        ('\x7b' :: (renderPair first ++ (renderPairs ps ++ ('\x7d' :: rest)))) =
        .err ('\x7b' :: (renderPair first ++ (renderPairs ps ++ ('\x7d' :: rest)))) :=
      primitive_value_err_head (by decide) (by decide) (by decide) (by decide)
        (by decide) (by decide)
    have hlit : match_literal ['\x7b']
        ('\x7b' :: (renderPair first ++ (renderPairs ps ++ ('\x7d' :: rest)))) =
        .ok (renderPair first ++ (renderPairs ps ++ ('\x7d' :: rest))) () := by
      simpa using match_literal_append ['\x7b']
        (renderPair first ++ (renderPairs ps ++ ('\x7d' :: rest)))
    have hpair : object_pair (json_value m)
        (renderPair first ++ (renderPairs ps ++ ('\x7d' :: rest))) =
        .ok (renderPairs ps ++ ('\x7d' :: rest)) (evalPairKV first) :=
      layPair_sound first m (renderPairs ps ++ ('\x7d' :: rest)) hwfF hdF
        (restOk_pairs_brace ps rest)
    have hz1 : zero_or_one (object_pair (json_value m))
        (renderPair first ++ (renderPairs ps ++ ('\x7d' :: rest))) =
        .ok (renderPairs ps ++ ('\x7d' :: rest)) [evalPairKV first] :=
      zero_or_one_of_ok hpair
    have hz2 : zero_or_more (comma_preceded_object_pair (json_value m))
        (renderPairs ps ++ ('\x7d' :: rest)) =
        .ok ('\x7d' :: rest) (evalPairList ps) :=
      layPairs_sound ps m rest hwfPs hdPs
    have hcl : match_literal ['\x7d'] ('\x7d' :: rest) = .ok rest () := by
      simpa using match_literal_append ['\x7d'] rest
    have hobj : object_value (json_value m)
        ('\x7b' :: (renderPair first ++ (renderPairs ps ++ ('\x7d' :: rest)))) =
        .ok rest (Value.object (buildObject [evalPairKV first] (evalPairList ps))) := by
      unfold object_value
      rw [and_then_of_ok hlit]
      exact map_of_ok (left_ok_ok (pair_ok_ok hz1 hz2) hcl)
    rw [either_of_err hprim]
    unfold nonprimitive_value
    exact either_of_ok hobj

theorem layElems_sound : ∀ (es : LayElemList) (m : Nat) (rest2 : Str),
    wfElemList es = true → depthElems es ≤ m →
    zero_or_more (comma_preceded_value (json_value m))
      (renderElems es ++ (']' :: rest2)) = .ok (']' :: rest2) (evalElemList es) := by
  intro es m rest2 hwf hdepth
  cases es with
  | nil =>
    show zero_or_more (comma_preceded_value (json_value m)) (']' :: rest2) =
      .ok (']' :: rest2) []
    apply zero_or_more_of_err
    unfold comma_preceded_value
    exact right_of_err1 (match_literal_head_ne (by decide))
  | cons e es2 =>
    simp only [wfElemList, Bool.and_eq_true] at hwf
    obtain ⟨hwfE, hwfEs⟩ := hwf
    simp only [depthElems] at hdepth
    have hdE : depthElem e ≤ m := le_trans (Nat.le_max_left _ _) hdepth
    have hdEs : depthElems es2 ≤ m := le_trans (Nat.le_max_right _ _) hdepth
    rw [show renderElems (.cons e es2) ++ (']' :: rest2) =
        ',' :: (renderElem e ++ (renderElems es2 ++ (']' :: rest2))) from by
      simp [renderElems, List.append_assoc]]
    have hel : json_value m (renderElem e ++ (renderElems es2 ++ (']' :: rest2))) =
        .ok (renderElems es2 ++ (']' :: rest2)) (evalElem e) :=
      layElem_sound e m (renderElems es2 ++ (']' :: rest2)) hwfE hdE
        (restOk_elems_bracket es2 rest2)
    have hcp : comma_preceded_value (json_value m)
        (',' :: (renderElem e ++ (renderElems es2 ++ (']' :: rest2)))) =
        .ok (renderElems es2 ++ (']' :: rest2)) (evalElem e) := by
      unfold comma_preceded_value
      have hcm : match_literal [',']
          (',' :: (renderElem e ++ (renderElems es2 ++ (']' :: rest2)))) =
          .ok (renderElem e ++ (renderElems es2 ++ (']' :: rest2))) () := by
        simpa using match_literal_append [',']
          (renderElem e ++ (renderElems es2 ++ (']' :: rest2)))
      exact right_ok_ok hcm hel
    have hlen : (renderElems es2 ++ (']' :: rest2)).length <
        (',' :: (renderElem e ++ (renderElems es2 ++ (']' :: rest2)))).length := by
      simp [List.length_append]
      omega
    rw [zero_or_more_of_ok hcp hlen,
      layElems_sound es2 m rest2 hwfEs hdEs]
    rfl

theorem layPair_sound : ∀ (p : LayPair) (m : Nat) (rest : Str),
    wfPair p = true → depthPair p ≤ m → RestOk rest →
    object_pair (json_value m) (renderPair p ++ rest) = .ok rest (evalPairKV p) := by
  intro p m rest hwf hdepth hrest
  obtain ⟨kw1, key, kw2, v⟩ := p
  simp only [wfPair, Bool.and_eq_true] at hwf
  obtain ⟨⟨⟨hkw1, hkey⟩, hkw2⟩, hv⟩ := hwf
  have hkw1a : ∀ c ∈ kw1, rustIsWhitespace c = true := by simpa using hkw1
  have hkw2a : ∀ c ∈ kw2, rustIsWhitespace c = true := by simpa using hkw2
  have hkeya : ∀ c ∈ key, c ≠ '"' := by simpa using hkey
  simp only [depthPair] at hdepth
  rw [show renderPair (.mk kw1 key kw2 v) ++ rest =
      kw1 ++ ('"' :: (key ++ ('"' :: (kw2 ++ (':' :: (renderElem v ++ rest)))))) from by
    simp [renderPair, List.append_assoc]]
  have hqs : quoted_string
      ('"' :: (key ++ ('"' :: (kw2 ++ (':' :: (renderElem v ++ rest)))))) =
      .ok (kw2 ++ (':' :: (renderElem v ++ rest))) key :=
    quoted_string_append hkeya
  have hsp1 : space0
      (kw1 ++ ('"' :: (key ++ ('"' :: (kw2 ++ (':' :: (renderElem v ++ rest))))))) =
      .ok ('"' :: (key ++ ('"' :: (kw2 ++ (':' :: (renderElem v ++ rest)))))) kw1 := by
    apply space0_append hkw1a
    intro c hc
    injection hc with h3
    rw [← h3]
    decide
  have hsp2 : space0 (kw2 ++ (':' :: (renderElem v ++ rest))) =
      .ok (':' :: (renderElem v ++ rest)) kw2 := by
    apply space0_append hkw2a
    intro c hc
    injection hc with h3
    rw [← h3]
    decide
  have htrim : trim quoted_string
      (kw1 ++ ('"' :: (key ++ ('"' :: (kw2 ++ (':' :: (renderElem v ++ rest))))))) =
      .ok (':' :: (renderElem v ++ rest)) key := by
    unfold trim
    exact right_ok_ok hsp1 (left_ok_ok hqs hsp2)
  have hcolon : match_literal [':'] (':' :: (renderElem v ++ rest)) =
      .ok (renderElem v ++ rest) () := by
    simpa using match_literal_append [':'] (renderElem v ++ rest)
  have hval : json_value m (renderElem v ++ rest) = .ok rest (evalElem v) :=
    layElem_sound v m rest hv hdepth hrest
  show object_pair (json_value m) _ = .ok rest (key, evalElem v)
  unfold object_pair
  exact pair_ok_ok htrim (right_ok_ok hcolon hval)

theorem layPairs_sound : ∀ (ps : LayPairList) (m : Nat) (rest2 : Str),
    wfPairList ps = true → depthPairs ps ≤ m →
    zero_or_more (comma_preceded_object_pair (json_value m))
      (renderPairs ps ++ ('\x7d' :: rest2)) =
      .ok ('\x7d' :: rest2) (evalPairList ps) := by
  intro ps m rest2 hwf hdepth
  cases ps with
  | nil =>
    show zero_or_more (comma_preceded_object_pair (json_value m))
      ('\x7d' :: rest2) = .ok ('\x7d' :: rest2) []
    apply zero_or_more_of_err
    unfold comma_preceded_object_pair
    exact right_of_err1 (match_literal_head_ne (by decide))
  | cons p ps2 =>
    simp only [wfPairList, Bool.and_eq_true] at hwf
    obtain ⟨hwfP, hwfPs⟩ := hwf
    simp only [depthPairs] at hdepth
    have hdP : depthPair p ≤ m := le_trans (Nat.le_max_left _ _) hdepth
    have hdPs : depthPairs ps2 ≤ m := le_trans (Nat.le_max_right _ _) hdepth
    rw [show renderPairs (.cons p ps2) ++ ('\x7d' :: rest2) =
        ',' :: (renderPair p ++ (renderPairs ps2 ++ ('\x7d' :: rest2))) from by
      simp [renderPairs, List.append_assoc]]
    have hpr : object_pair (json_value m)
        (renderPair p ++ (renderPairs ps2 ++ ('\x7d' :: rest2))) =
        .ok (renderPairs ps2 ++ ('\x7d' :: rest2)) (evalPairKV p) :=
      layPair_sound p m (renderPairs ps2 ++ ('\x7d' :: rest2)) hwfP hdP
        (restOk_pairs_brace ps2 rest2)
    have hcp : comma_preceded_object_pair (json_value m)
        (',' :: (renderPair p ++ (renderPairs ps2 ++ ('\x7d' :: rest2)))) =
        .ok (renderPairs ps2 ++ ('\x7d' :: rest2)) (evalPairKV p) := by
      unfold comma_preceded_object_pair
      have hcm : match_literal [',']
          (',' :: (renderPair p ++ (renderPairs ps2 ++ ('\x7d' :: rest2)))) =
          .ok (renderPair p ++ (renderPairs ps2 ++ ('\x7d' :: rest2))) () := by
        simpa using match_literal_append [',']
          (renderPair p ++ (renderPairs ps2 ++ ('\x7d' :: rest2)))
      exact right_ok_ok hcm hpr
    have hlen : (renderPairs ps2 ++ ('\x7d' :: rest2)).length <
        (',' :: (renderPair p ++ (renderPairs ps2 ++ ('\x7d' :: rest2)))).length := by
      simp [List.length_append]
      omega
    rw [zero_or_more_of_ok hcp hlen,
      layPairs_sound ps2 m rest2 hwfPs hdPs]
    rfl

end

/-!  The nesting depth of a layout is bounded by its rendered length, so the
fuel the entry point chooses is always sufficient. -/

mutual

theorem depthLay_lt_len : ∀ L : Lay, wfLay L = true →
    depthLay L < (renderLay L).length := by
  intro L hwf
  cases L with
  | lnull => decide
  | ltrue => decide
  | lfalse => decide
  | lstr content =>
    simp only [depthLay, renderLay]
    simp [List.length_append]
  | luint ds =>
    cases ds with
    | nil => simp [wfLay] at hwf
    | cons d ds2 =>
      simp only [depthLay, renderLay]
      simp
  | lint ds =>
    simp only [depthLay, renderLay]
    simp
  | larrEmpty => decide
  | lobjEmpty => decide
  | larr first es =>
    simp only [wfLay, Bool.and_eq_true] at hwf
    have h1 := depthElem_le_len first hwf.1
    have h2 := depthElems_le_len es hwf.2
    simp only [depthLay, renderLay]
    simp only [List.length_cons, List.length_append]
    refine Nat.max_lt.mpr ⟨?_, ?_⟩ <;> simp <;> omega
  | lobj first ps =>
    simp only [wfLay, Bool.and_eq_true] at hwf
    have h1 := depthPair_le_len first hwf.1
    have h2 := depthPairs_le_len ps hwf.2
    simp only [depthLay, renderLay]
    simp only [List.length_cons, List.length_append]
    refine Nat.max_lt.mpr ⟨?_, ?_⟩ <;> simp <;> omega

theorem depthElem_le_len : ∀ e : LayElem, wfElem e = true →
    depthElem e ≤ (renderElem e).length := by
  intro e hwf
  obtain ⟨w1, core, w2⟩ := e
  simp only [wfElem, Bool.and_eq_true] at hwf
  have h := depthLay_lt_len core hwf.1.2
  simp only [depthElem, renderElem]
  simp only [List.length_append]
  omega

theorem depthElems_le_len : ∀ es : LayElemList, wfElemList es = true →
    depthElems es ≤ (renderElems es).length := by
  intro es hwf
  cases es with
  | nil => simp [depthElems, renderElems]
  | cons e es2 =>
    simp only [wfElemList, Bool.and_eq_true] at hwf
    have h1 := depthElem_le_len e hwf.1
    have h2 := depthElems_le_len es2 hwf.2
    simp only [depthElems, renderElems]
    simp only [List.length_cons, List.length_append]
    refine Nat.max_le.mpr ⟨?_, ?_⟩ <;> omega

theorem depthPair_le_len : ∀ p : LayPair, wfPair p = true →
    depthPair p ≤ (renderPair p).length := by
  intro p hwf
  obtain ⟨kw1, key, kw2, v⟩ := p
  simp only [wfPair, Bool.and_eq_true] at hwf
  have h := depthElem_le_len v hwf.2
  simp only [depthPair, renderPair]
  simp only [List.length_append, List.length_cons]
  omega

theorem depthPairs_le_len : ∀ ps : LayPairList, wfPairList ps = true →
    depthPairs ps ≤ (renderPairs ps).length := by
  intro ps hwf
  cases ps with
  | nil => simp [depthPairs, renderPairs]
  | cons p ps2 =>
    simp only [wfPairList, Bool.and_eq_true] at hwf
    have h1 := depthPair_le_len p hwf.1
    have h2 := depthPairs_le_len ps2 hwf.2
    simp only [depthPairs, renderPairs]
    simp only [List.length_cons, List.length_append]
    refine Nat.max_le.mpr ⟨?_, ?_⟩ <;> omega

end

/-- C2 counterexample: the empty array parses, but inserting a single space
between its brackets (likewise for the empty object) makes the parse fail:
the optional-element parser consumes nothing on failure, so the whitespace is
still there when the closing bracket is demanded. -/
theorem claim_C2_counterexample :
    parse ("[]".toList) = .ok (.array []) ∧
    parse ("[ ]".toList) = .err (" ]".toList) ∧
    parse ("\x7b \x7d".toList) = .err ("\x7b \x7d".toList) :=
  ⟨rfl, rfl, rfl⟩

/-- C2 amended: whitespace runs around the structural punctuation and at the
document edges never change the parsed Value — with the one exception of the
interior of an empty array or empty object, which must be whitespace-free.
Formally: a layout carries an arbitrary whitespace run at every slot
adjacent to a bracket, brace, comma or colon and at both ends of every
value (empty composites have no interior slot); every well-formed rendered
layout parses to its evaluation, and the evaluation never depends on the
whitespace fields. -/
theorem claim_C2_whitespace_layouts :
    (∀ e : LayElem, wfElem e = true → parse (renderElem e) = .ok (evalElem e)) ∧
    (∀ (w1 w2 w1a w2a : Str) (core : Lay),
      evalElem (.mk w1 core w2) = evalElem (.mk w1a core w2a)) := by
  constructor
  · intro e hwf
    have hd : depthElem e ≤ (renderElem e).length + 1 :=
      le_trans (depthElem_le_len e hwf) (by omega)
    have h := layElem_sound e ((renderElem e).length + 1) [] hwf hd restOk_nil
    rw [List.append_nil] at h
    unfold parse
    rw [h]
  · intro w1 w2 w1a w2a core
    rfl

/-- C2 witness: a concrete layout with whitespace in every slot around the
punctuation of a two-element array parses to the whitespace-free Value. -/
theorem claim_C2_witness :
    parse (" [ 1 , null ] ".toList) =
      .ok (.array [.number (.uint 1), .null]) :=
  claim_C2_whitespace_layouts.1
    (.mk (" ".toList)
      (.larr (.mk (" ".toList) (.luint ("1".toList)) (" ".toList))
        (.cons (.mk (" ".toList) .lnull (" ".toList)) .nil))
      (" ".toList)) rfl

end JsonCombinator
